import Mathlib

/-
  Verification of the log-replication core of NuRaft
  (src/handle_append_entries.cxx) against its specification.

  The source file is shallowly embedded below.  The 1-based log store is
  modelled as a `List LogEntry` whose element at position `i - 1` is the
  entry at log index `i`; hence `next_slot = log.length + 1` and
  `next_slot - 1 = log.length`.  Machine integers (`ulong`) are modelled
  as `Nat`, with an explicit `% 2^64` wherever the C++ code can wrap.
-/

namespace NuRaft

/-- Value type of a log entry (`log_val_type` in the source; only
`app_log` and `conf` are distinguished by the replication code). -/
inductive LogValType
  | appLog
  | conf
  | other
  deriving DecidableEq, Repr

/-- A log entry: `(term, kind, payload)`.  The payload is opaque to the
replication core and is modelled as a `Nat`. -/
structure LogEntry where
  term : Nat
  valType : LogValType
  payload : Nat
  deriving DecidableEq, Repr

instance : Inhabited LogEntry := ⟨⟨0, LogValType.other, 0⟩⟩

/-- Snapshot metadata (`snapshot::get_last_log_idx/term`). -/
structure Snapshot where
  lastLogIdx : Nat
  lastLogTerm : Nat
  deriving DecidableEq, Repr

/-- `2 ^ 64`, the modulus of the C++ `ulong` arithmetic. -/
def U64 : Nat := 18446744073709551616

/-- Server roles (`srv_role`). -/
inductive SrvRole
  | leader
  | candidate
  | follower
  deriving DecidableEq, Repr

/-- The follower-visible server state read and written by
`handle_append_entries`.  Timers and logging are not modelled. -/
structure FollowerState where
  term : Nat
  role : SrvRole
  log : List LogEntry
  snapshot : Option Snapshot
  smCommitIndex : Nat
  quickCommitIndex : Nat
  leaderCommitIndex : Nat
  leaderId : Nat
  configChanging : Bool
  initialized : Bool
  catchingUp : Bool
  stopping : Bool
  deriving DecidableEq, Repr

/-- Wire message `AppendEntriesRequest`. -/
structure AppendReq where
  term : Nat
  src : Nat
  lastLogIdx : Nat
  lastLogTerm : Nat
  commitIdx : Nat
  entries : List LogEntry
  deriving DecidableEq, Repr

/-- Wire message `AppendEntriesResponse` (fields used by this code). -/
structure AppendResp where
  term : Nat
  nextIdx : Nat
  accepted : Bool
  deriving DecidableEq, Repr

/-- Observable side effects of the follower handler, recorded in program
order: state-machine rollback and pre-commit calls, log-store writes and
appends, the `end_of_append_batch` call and the `commit` call. -/
inductive Ev
  | rollback (idx : Nat) (payload : Nat)
  | preCommit (idx : Nat) (payload : Nat)
  | writeAt (idx : Nat)
  | append (idx : Nat)
  | batchEnd (start : Nat) (count : Nat)
  | commitCall (idx : Nat)
  deriving DecidableEq, Repr

/-- `log_store::term_at(i)` for `1 ≤ i ≤ log.length` (callers guard the
range). -/
def termAt (log : List LogEntry) (i : Nat) : Nat :=
  (log.getD (i - 1) default).term

/-- Modelled from the spec: `term_for_log(i)` (defined in `raft_server.cxx`,
which is outside the given source file) "returns the term at index `i`,
consulting the snapshot if `i == snapshot.last_log_idx`, returning 0 for
unknown". -/
def termForLog (log : List LogEntry) (snp : Option Snapshot) (i : Nat) : Nat :=
  if i = 0 then 0
  else if i ≤ log.length then termAt log i
  else
    match snp with
    | some s => if s.lastLogIdx = i then s.lastLogTerm else 0
    | none => 0

/-- The `log_okay` predicate of `handle_append_entries` (lines 326-336 of
the source). -/
def logOkay (log : List LogEntry) (snp : Option Snapshot) (req : AppendReq) : Bool :=
  let logTerm : Nat :=
    if req.lastLogIdx < log.length + 1 then termForLog log snp req.lastLogIdx else 0
  req.lastLogIdx == 0 ||
  (logTerm != 0 && req.lastLogTerm == logTerm) ||
  (match snp with
   | some s => s.lastLogIdx == req.lastLogIdx && s.lastLogTerm == req.lastLogTerm
   | none => false)

/-- Modelled from the spec: `commit(idx)` (defined in `handle_commit.cxx`,
outside the given source file) advances the quick-commit index to `idx`
when `idx` is greater; it never lowers it. -/
def commitAdvance (st : FollowerState) (idx : Nat) : FollowerState :=
  if st.quickCommitIndex < idx then { st with quickCommitIndex := idx } else st

/-- Phase A of the accept path: skip the prefix of the request's entries
whose terms already match the stored log (source lines 384-394).  Returns
the final `log_idx` and the remaining entries. -/
def skipPhase (log : List LogEntry) : Nat → List LogEntry → Nat × List LogEntry
  | logIdx, [] => (logIdx, [])
  | logIdx, e :: rest =>
    if logIdx < log.length + 1 then
      if termAt log logIdx = e.term then skipPhase log (logIdx + 1) rest
      else (logIdx, e :: rest)
    else (logIdx, e :: rest)

/-- The state change of one overwrite iteration (source lines 400-436):
roll back / revert the old entry at `log_idx`, truncating-write the new
entry there (`store_log_entry(entry, log_idx)`, a `write_at` per the
spec's log-store contract), pre-commit / flag it, and regress both
commit indices when `log_idx ≤ sm_commit_index`.  The four sequential
mutations of the source are combined into one record update with the
same net effect (the new entry's `conf` flag wins over the reverted old
one, as in the source where it is assigned later). -/
def owNext (st : FollowerState) (logIdx : Nat) (e : LogEntry) : FollowerState :=
  { st with
    log := st.log.take (logIdx - 1) ++ [e],
    configChanging :=
      if e.valType = LogValType.conf then true
      else if (st.log.getD (logIdx - 1) default).valType = LogValType.conf
           then false
      else st.configChanging,
    smCommitIndex :=
      if logIdx ≤ st.smCommitIndex then logIdx - 1 else st.smCommitIndex,
    quickCommitIndex :=
      if logIdx ≤ st.smCommitIndex then logIdx - 1 else st.quickCommitIndex }

/-- The events of one overwrite iteration, in source order: rollback of
an old application entry, the log write, pre-commit of a new application
entry. -/
def owTrace (st : FollowerState) (logIdx : Nat) (e : LogEntry) : List Ev :=
  (if (st.log.getD (logIdx - 1) default).valType = LogValType.appLog
   then [Ev.rollback logIdx (st.log.getD (logIdx - 1) default).payload] else [])
  ++ [Ev.writeAt logIdx]
  ++ (if e.valType = LogValType.appLog
      then [Ev.preCommit logIdx e.payload] else [])

/-- Phase B of the accept path: overwrite the divergent suffix (source
lines 398-442).  Returns the state, the final `log_idx`, the unconsumed
entries, the event trace so far, and whether the handler must return
early because the server is stopping (`stopping_` is modelled as a
constant flag of the state, checked where the source checks it). -/
def owPhase (st : FollowerState) (logIdx : Nat) (tr : List Ev) :
    List LogEntry → FollowerState × Nat × List LogEntry × List Ev × Bool
  | [] => (st, logIdx, [], tr, false)
  | e :: rest =>
    if logIdx < st.log.length + 1 then
      let st' := owNext st logIdx e
      let tr' := tr ++ owTrace st logIdx e
      if st'.stopping then (st', logIdx + 1, rest, tr', true)
      else owPhase st' (logIdx + 1) tr' rest
    else (st, logIdx, e :: rest, tr, false)

/-- The state change of one append iteration (source lines 447-459):
append the entry at `next_slot` and flag a configuration change. -/
def apNext (st : FollowerState) (e : LogEntry) : FollowerState :=
  { st with
    log := st.log ++ [e],
    configChanging :=
      if e.valType = LogValType.conf then true else st.configChanging }

/-- The events of one append iteration: the append at `next_slot`, then
pre-commit of an application entry. -/
def apTrace (st : FollowerState) (e : LogEntry) : List Ev :=
  [Ev.append (st.log.length + 1)]
  ++ (if e.valType = LogValType.appLog
      then [Ev.preCommit (st.log.length + 1) e.payload] else [])

/-- Phase C of the accept path: append the remaining tail (source lines
446-463). -/
def apPhase (st : FollowerState) (tr : List Ev) :
    List LogEntry → FollowerState × List Ev × Bool
  | [] => (st, tr, false)
  | e :: rest =>
    let st' := apNext st e
    let tr' := tr ++ apTrace st e
    if st'.stopping then (st', tr', true) else apPhase st' tr' rest

/-- The three reconcile phases plus `end_of_append_batch`, guarded by
`req.log_entries().size() > 0` (source lines 371-468). -/
def writePhases (st : FollowerState) (req : AppendReq) :
    FollowerState × List Ev × Bool :=
  if req.entries.length > 0 then
    let skipped := skipPhase st.log (req.lastLogIdx + 1) req.entries
    let ow := owPhase st skipped.1 [] skipped.2
    if ow.2.2.2.2 then (ow.1, ow.2.2.2.1, true)
    else
      let ap := apPhase ow.1 ow.2.2.2.1 ow.2.2.1
      if ap.2.2 then (ap.1, ap.2.1, true)
      else (ap.1, ap.2.1 ++ [Ev.batchEnd (req.lastLogIdx + 1) req.entries.length],
            false)
  else (st, [], false)

/-- Step 1 of `handle_append_entries`: clear `catching_up_` and, when
the request carries the current term and this node is a candidate,
become follower (source lines 269-308; the same-term-leader branch is
handled by the caller `handleAppendEntries`). -/
def roleReconcile (st0 : FollowerState) (req : AppendReq) : FollowerState :=
  let st := { st0 with catchingUp := false }
  if req.term = st.term ∧ st.role = SrvRole.candidate
  then { st with role := SrvRole.follower } else st

/-- The follower state right before the reconcile phases: role
reconciliation done and the `initialized_` flag set (source line 365). -/
def acceptMid (st0 : FollowerState) (req : AppendReq) : FollowerState :=
  { roleReconcile st0 req with initialized := true }

/-- `raft_server::handle_append_entries` (source lines 266-503).  Returns
the response (`none` on the same-term-leader path), the new state, and
the event trace.  Election-timer and logging effects are not modelled. -/
def handleAppendEntries (st0 : FollowerState) (req : AppendReq) :
    Option AppendResp × FollowerState × List Ev :=
  if req.term = st0.term ∧ st0.role = SrvRole.leader then
    (none, { st0 with catchingUp := false }, [])
  else
  let st := roleReconcile st0 req
  let resp : AppendResp := ⟨st.term, st.log.length + 1, false⟩
  if req.term < st.term ∨ logOkay st.log st.snapshot req = false then
    (some resp, st, [])
  else
  let ph := writePhases (acceptMid st0 req) req
  if ph.2.2 then (some resp, ph.1, ph.2.1) else
  let st := { ph.1 with leaderId := req.src, leaderCommitIndex := req.commitIdx }
  let cIdx := min req.commitIdx st.log.length
  let st := commitAdvance st cIdx
  (some { resp with accepted := true,
                    nextIdx := req.lastLogIdx + req.entries.length + 1 },
   st, ph.2.1 ++ [Ev.commitCall cIdx])

/-- Leader-side per-peer replication state (the fields of `peer` read
and written by this source file). -/
structure Peer where
  id : Nat
  nextLogIdx : Nat
  matchedIdx : Nat
  isLearner : Bool
  lastSentIdx : Nat
  cntNotApplied : Nat
  deriving DecidableEq, Repr

/-- Response message as seen by `handle_append_entries_resp`. -/
structure RespMsg where
  src : Nat
  nextIdx : Nat
  accepted : Bool
  deriving DecidableEq, Repr

/-- The accepted-path peer update (source lines 522-528):
`next_log_idx := resp.next_idx`, `matched_idx := resp.next_idx - 1`,
the subtraction being 64-bit unsigned. -/
def acceptedPeerUpdate (p : Peer) (respNextIdx : Nat) : Peer :=
  { p with nextLogIdx := respNextIdx,
           matchedIdx := (respNextIdx + (U64 - 1)) % U64 }

/-- The rejected-path peer update (source lines 575-581): fast-jump to
`resp.next_idx` when it is positive and below the current
`next_log_idx`, otherwise decrement by one (64-bit unsigned). -/
def rejectedPeerUpdate (p : Peer) (respNextIdx : Nat) : Peer :=
  if 0 < respNextIdx ∧ respNextIdx < p.nextLogIdx
  then { p with nextLogIdx := respNextIdx }
  else { p with nextLogIdx := (p.nextLogIdx + (U64 - 1)) % U64 }

/-- Invariant 2 of the spec: `matched_idx ≤ next_log_idx - 1`, i.e.
`matched_idx < next_log_idx`. -/
def peerInv (p : Peer) : Prop := p.matchedIdx < p.nextLogIdx

/-- Collection of match indices for the quorum computation (source lines
537-549): the leader's own `next_slot - 1` is pushed first, then the
`matched_idx` of every peer that is not a learner. -/
def collectMatchedIndexes (leaderLastIdx : Nat) (peers : List Peer) : List Nat :=
  peers.foldl
    (fun acc p => if p.isLearner then acc else acc ++ [p.matchedIdx])
    [leaderLastIdx]

/-- Descending sort, the model of
`std::sort(v.begin(), v.end(), std::greater<ulong>())`. -/
def sortDesc (l : List Nat) : List Nat :=
  List.insertionSort (fun a b => b ≤ a) l

/-- `raft_server::handle_append_entries_resp` (source lines 505-588),
without the catch-up continuation.  `nextSlot` is the leader's
`log_store_->next_slot()` and `quorum` is `get_quorum_for_commit()`.
Returns the updated peer list and the argument passed to `commit`
(`none` when no commit call is made). -/
def handleAppendEntriesResp (nextSlot quorum : Nat) (peers : List Peer)
    (resp : RespMsg) : List Peer × Option Nat :=
  if peers.all (fun p => p.id ≠ resp.src) then (peers, none)
  else if resp.accepted then
    let peers := peers.map
      (fun p => if p.id = resp.src then acceptedPeerUpdate p resp.nextIdx else p)
    let matchedIndexes := collectMatchedIndexes (nextSlot - 1) peers
    let sorted := sortDesc matchedIndexes
    (peers, some (sorted.getD quorum 0))
  else
    (peers.map
      (fun p => if p.id = resp.src then rejectedPeerUpdate p resp.nextIdx else p),
     none)

/-- The leader-side view snapshotted by `create_append_entries_req`
under the server lock (source lines 159-165), together with the
configuration parameter `max_append_size_`. -/
structure LeaderView where
  startIndex : Nat
  curNextIdx : Nat
  commitIdx : Nat
  term : Nat
  maxAppendSize : Nat
  snapshot : Option Snapshot
  log : List LogEntry
  deriving DecidableEq, Repr

/-- Outcome of `create_append_entries_req`: the fatal invariant break
(`N8_peer_last_log_idx_too_large`), the snapshot-sync fallback, or an
assembled append-entries request.  `endIdx` is the exclusive upper bound
of the shipped range and `numEntries = |[lastLogIdx+1, endIdx)|`
(empty when `last_log_idx + 1 >= cur_nxt_idx`, source line 236). -/
inductive BuildResult
  | fatal
  | snapshotReq (lastLogIdx : Nat) (term : Nat) (commitIdx : Nat)
  | appendReq (term : Nat) (lastLogTerm : Nat) (lastLogIdx : Nat)
      (commitIdx : Nat) (endIdx : Nat) (numEntries : Nat)
  deriving DecidableEq, Repr

/-- `raft_server::create_append_entries_req` (source lines 152-264).
Returns the build outcome and the updated peer state. -/
def createAppendEntriesReq (v : LeaderView) (p : Peer) : BuildResult × Peer :=
  let p := if p.nextLogIdx = 0 then { p with nextLogIdx := v.curNextIdx } else p
  let lastLogIdx := p.nextLogIdx - 1
  if lastLogIdx ≥ v.curNextIdx then (BuildResult.fatal, p)
  else if (match v.snapshot with
           | some s => decide (lastLogIdx < v.startIndex ∧ lastLogIdx < s.lastLogIdx)
           | none => false)
  then (BuildResult.snapshotReq lastLogIdx v.term v.commitIdx, p)
  else
    let lastLogTerm := termForLog v.log v.snapshot lastLogIdx
    let endIdx0 := min v.curNextIdx (lastLogIdx + 1 + v.maxAppendSize)
    let step :
        Peer × Nat :=
      if lastLogIdx + 1 = p.lastSentIdx ∧ lastLogIdx + 2 < endIdx0 then
        let cnt := p.cntNotApplied + 1
        let p := { p with cntNotApplied := cnt }
        if cnt ≥ 5 then (p, min v.curNextIdx (lastLogIdx + 1 + 1))
        else (p, endIdx0)
      else ({ p with cntNotApplied := 0 }, endIdx0)
    let p := step.1
    let endIdx := step.2
    let numEntries := if lastLogIdx + 1 ≥ v.curNextIdx then 0
                      else endIdx - (lastLogIdx + 1)
    let p := { p with lastSentIdx := lastLogIdx + 1 }
    (BuildResult.appendReq v.term lastLogTerm lastLogIdx v.commitIdx
       endIdx numEntries, p)

/-- Voting-peer match indices: `matched_idx` of every peer that is not a
learner (the list the spec's quorum rule ranges over). -/
def votersOf (peers : List Peer) : List Nat :=
  (peers.filter (fun p => !p.isLearner)).map Peer.matchedIdx

instance : IsTotal Nat (fun a b => b ≤ a) := ⟨fun a b => Nat.le_total b a⟩

instance : IsTrans Nat (fun a b => b ≤ a) := ⟨fun _ _ _ h1 h2 => Nat.le_trans h2 h1⟩

/-- Concrete log entry with a given term, used by the concrete runs below. -/
def appEntry (t : Nat) : LogEntry := ⟨t, LogValType.appLog, 0⟩

/-- Concrete peer state for the C8 counterexample: `matched_idx = 5`,
`next_log_idx = 6`. -/
def peerC8 : Peer := ⟨1, 6, 5, false, 0, 0⟩

/-- Concrete peer state for the C10 witness: `next_log_idx = 0`. -/
def peerC10 : Peer := ⟨1, 0, 0, false, 0, 0⟩

/-- Concrete leader view for the C5 runs: log of five term-1 entries,
`next_slot = 6`, `max_append_size = 100`. -/
def viewC5 : LeaderView :=
  ⟨1, 6, 0, 1, 100, none, [appEntry 1, appEntry 1, appEntry 1, appEntry 1, appEntry 1]⟩

/-- Concrete peer for the C5 counterexample: `next_log_idx = 5`, so
`last_log_idx + 1 = 5 = last_sent_idx`, but only one entry is available
(`last_log_idx + 2 = 6` is not below `end_idx = 6`). -/
def peerC5 : Peer := ⟨2, 5, 4, false, 5, 3⟩

/-- Concrete peer for the C5 witness: `last_sent_idx = last_log_idx + 1 = 2`,
four prior misses, wide batch available. -/
def peerC5b : Peer := ⟨2, 2, 1, false, 2, 4⟩

/-- Concrete peer list for the C1 witness (the spec's scenario S5:
three voters matched at 10, 9, 8, one learner at 10, leader at 10). -/
def peersS5 : List Peer :=
  [⟨1, 11, 10, false, 0, 0⟩, ⟨2, 10, 9, false, 0, 0⟩, ⟨3, 9, 8, false, 0, 0⟩,
   ⟨4, 11, 10, true, 0, 0⟩]

/-- Concrete follower (the spec's scenario S1): log `[t1, t1]`, term 1. -/
def stHappy : FollowerState :=
  ⟨1, SrvRole.follower, [appEntry 1, appEntry 1], none, 0, 0, 0, 0,
   false, true, false, false⟩

/-- Concrete request (scenario S1): append the entry at index 3. -/
def reqHappy : AppendReq := ⟨1, 9, 2, 1, 2, [appEntry 1]⟩

/-- Concrete follower for the C4 counterexample: `quick_commit_index = 10`
would be unrepresentative, so: log `[t1, t1, t1]`, `quick_commit_index = 3`,
`sm_commit_index = 0`. -/
def stStaleQci : FollowerState :=
  ⟨2, SrvRole.follower, [appEntry 1, appEntry 1, appEntry 1], none, 0, 3, 0, 0,
   false, true, false, false⟩

/-- Concrete request overwriting index 1 with a term-2 entry. -/
def reqOverwrite : AppendReq := ⟨2, 9, 0, 0, 0, [appEntry 2]⟩

/-- Concrete follower for the C6 counterexample (same as `stHappy`). -/
def stHeartbeat : FollowerState :=
  ⟨1, SrvRole.follower, [appEntry 1, appEntry 1], none, 0, 0, 0, 0,
   false, true, false, false⟩

/-- Concrete heartbeat request: empty entries, valid log match. -/
def reqHeartbeat : AppendReq := ⟨1, 9, 2, 1, 1, []⟩

/-- Concrete follower for the C3 witness: current term 5. -/
def stTermFive : FollowerState :=
  ⟨5, SrvRole.follower, [appEntry 1], none, 0, 0, 0, 0,
   false, true, false, false⟩

/-- Concrete stale request carrying term 3 < 5. -/
def reqStale : AppendReq := ⟨3, 9, 1, 1, 0, [appEntry 3]⟩

/-- Concrete stopping follower for the C9 witness. -/
def stStopping : FollowerState :=
  ⟨2, SrvRole.follower, [appEntry 1, appEntry 1, appEntry 1], none, 0, 0, 0, 0,
   false, true, false, true⟩

/-- Events that the reconcile phases may emit (everything except the
`end_of_append_batch` marker and the `commit` call). -/
def phaseEv : Ev → Bool
  | Ev.batchEnd _ _ => false
  | Ev.commitCall _ => false
  | _ => true

/-- Fields of the follower state that the reconcile phases never touch. -/
def coreSame (a b : FollowerState) : Prop :=
  b.term = a.term ∧ b.role = a.role ∧ b.snapshot = a.snapshot ∧
  b.stopping = a.stopping ∧ b.initialized = a.initialized ∧
  b.catchingUp = a.catchingUp ∧ b.leaderId = a.leaderId ∧
  b.leaderCommitIndex = a.leaderCommitIndex

/-! ## Helper lemmas -/

theorem coreSame_refl (a : FollowerState) : coreSame a a :=
  ⟨rfl, rfl, rfl, rfl, rfl, rfl, rfl, rfl⟩

theorem eta_catchingUp (st : FollowerState) (h : st.catchingUp = false) :
    { st with catchingUp := false } = st := by
  cases st; simp_all

theorem eta_initialized (st : FollowerState) (h : st.initialized = true) :
    { st with initialized := true } = st := by
  cases st; simp_all

theorem eta_leaderFields (st : FollowerState) (a b : Nat)
    (h1 : st.leaderId = a) (h2 : st.leaderCommitIndex = b) :
    { st with leaderId := a, leaderCommitIndex := b } = st := by
  cases st; simp_all

theorem roleReconcile_fields (st : FollowerState) (req : AppendReq) :
    (roleReconcile st req).term = st.term ∧
    (roleReconcile st req).log = st.log ∧
    (roleReconcile st req).snapshot = st.snapshot ∧
    (roleReconcile st req).stopping = st.stopping ∧
    (roleReconcile st req).smCommitIndex = st.smCommitIndex ∧
    (roleReconcile st req).quickCommitIndex = st.quickCommitIndex ∧
    (roleReconcile st req).leaderId = st.leaderId ∧
    (roleReconcile st req).leaderCommitIndex = st.leaderCommitIndex ∧
    (roleReconcile st req).initialized = st.initialized ∧
    (roleReconcile st req).catchingUp = false ∧
    (roleReconcile st req).configChanging = st.configChanging ∧
    (roleReconcile st req).role =
      (if req.term = st.term ∧ st.role = SrvRole.candidate
       then SrvRole.follower else st.role) := by
  by_cases hc : req.term = st.term ∧ st.role = SrvRole.candidate
  · simp [roleReconcile, hc]
  · simp [roleReconcile, hc]

theorem roleReconcile_id (st : FollowerState) (req : AppendReq)
    (h1 : st.catchingUp = false)
    (h2 : ¬ (req.term = st.term ∧ st.role = SrvRole.candidate)) :
    roleReconcile st req = st := by
  unfold roleReconcile
  rw [if_neg (by simpa using h2)]
  exact eta_catchingUp st h1

theorem commitAdvance_fields (st : FollowerState) (i : Nat) :
    (commitAdvance st i).term = st.term ∧
    (commitAdvance st i).role = st.role ∧
    (commitAdvance st i).log = st.log ∧
    (commitAdvance st i).snapshot = st.snapshot ∧
    (commitAdvance st i).stopping = st.stopping ∧
    (commitAdvance st i).smCommitIndex = st.smCommitIndex ∧
    (commitAdvance st i).leaderId = st.leaderId ∧
    (commitAdvance st i).leaderCommitIndex = st.leaderCommitIndex ∧
    (commitAdvance st i).initialized = st.initialized ∧
    (commitAdvance st i).catchingUp = st.catchingUp ∧
    (commitAdvance st i).configChanging = st.configChanging := by
  unfold commitAdvance
  split <;> simp_all

theorem commitAdvance_qci (st : FollowerState) (i : Nat) :
    i ≤ (commitAdvance st i).quickCommitIndex ∧
    (commitAdvance st i).quickCommitIndex ≤ max st.quickCommitIndex i := by
  unfold commitAdvance
  split
  · constructor
    · show i ≤ i
      exact Nat.le_refl i
    · show i ≤ max st.quickCommitIndex i
      omega
  · constructor
    · omega
    · omega

theorem commitAdvance_id (st : FollowerState) (i : Nat)
    (h : ¬ st.quickCommitIndex < i) : commitAdvance st i = st := by
  unfold commitAdvance
  exact if_neg h

theorem termAt_take_append (log : List LogEntry) (i k : Nat) (e : LogEntry)
    (h1 : 1 ≤ k) (h2 : k < i) (h3 : i ≤ log.length + 1) :
    termAt (log.take (i - 1) ++ [e]) k = termAt log k := by
  unfold termAt
  rw [List.getD_eq_getElem?_getD, List.getD_eq_getElem?_getD,
    List.getElem?_append, if_pos (by rw [List.length_take]; omega),
    List.getElem?_take, if_pos (by omega)]

theorem termAt_take_append_self (log : List LogEntry) (i : Nat) (e : LogEntry)
    (h1 : 1 ≤ i) (h3 : i ≤ log.length + 1) :
    termAt (log.take (i - 1) ++ [e]) i = e.term := by
  unfold termAt
  rw [List.getD_eq_getElem?_getD, List.getElem?_append,
    if_neg (by rw [List.length_take]; omega)]
  have hlen : (log.take (i - 1)).length = i - 1 := by
    rw [List.length_take]; omega
  rw [hlen]
  have : i - 1 - (i - 1) = 0 := by omega
  rw [this]
  rfl

theorem termAt_append_left (log l2 : List LogEntry) (k : Nat)
    (h1 : 1 ≤ k) (h2 : k ≤ log.length) :
    termAt (log ++ l2) k = termAt log k := by
  unfold termAt
  rw [List.getD_eq_getElem?_getD, List.getD_eq_getElem?_getD,
    List.getElem?_append, if_pos (by omega)]

theorem termAt_append_right (log l2 : List LogEntry) (j : Nat)
    (hj : j < l2.length) :
    termAt (log ++ l2) (log.length + 1 + j) = (l2.getD j default).term := by
  unfold termAt
  rw [List.getD_eq_getElem?_getD, List.getD_eq_getElem?_getD,
    List.getElem?_append, if_neg (by omega)]
  have : log.length + 1 + j - 1 - log.length = j := by omega
  rw [this]

theorem getD_drop (l : List LogEntry) (k j : Nat) :
    (l.drop k).getD j default = l.getD (k + j) default := by
  rw [List.getD_eq_getElem?_getD, List.getD_eq_getElem?_getD,
    List.getElem?_drop]

theorem u64_pred_mod (n : Nat) (h1 : 1 ≤ n) (h2 : n < U64) :
    (n + (U64 - 1)) % U64 = n - 1 := by
  simp only [U64] at *
  omega

theorem collect_eq_cons (x : Nat) (peers : List Peer) :
    collectMatchedIndexes x peers = x :: votersOf peers := by
  suffices h : ∀ acc : List Nat,
      peers.foldl
        (fun acc p => if p.isLearner then acc else acc ++ [p.matchedIdx]) acc
      = acc ++ votersOf peers by
    simpa [collectMatchedIndexes] using h [x]
  induction peers with
  | nil => intro acc; simp [votersOf]
  | cons p ps ih =>
    intro acc
    by_cases hp : p.isLearner
    · simp [List.foldl_cons, hp, ih, votersOf]
    · simp [List.foldl_cons, hp, ih, votersOf]

theorem phaseEv_owTrace (st : FollowerState) (logIdx : Nat) (e : LogEntry) :
    ∀ x ∈ owTrace st logIdx e, phaseEv x = true := by
  intro x hx
  simp only [owTrace, List.append_assoc, List.mem_append,
    List.mem_singleton] at hx
  rcases hx with hx | hx | hx
  · by_cases hc : (st.log.getD (logIdx - 1) default).valType = LogValType.appLog
    · rw [if_pos hc] at hx
      simp only [List.mem_singleton] at hx
      rw [hx]
      rfl
    · rw [if_neg hc] at hx
      simp at hx
  · rw [hx]
    rfl
  · by_cases hc : e.valType = LogValType.appLog
    · rw [if_pos hc] at hx
      simp only [List.mem_singleton] at hx
      rw [hx]
      rfl
    · rw [if_neg hc] at hx
      simp at hx

theorem phaseEv_apTrace (st : FollowerState) (e : LogEntry) :
    ∀ x ∈ apTrace st e, phaseEv x = true := by
  intro x hx
  simp only [apTrace, List.append_assoc, List.mem_append,
    List.mem_singleton] at hx
  rcases hx with hx | hx
  · rw [hx]
    rfl
  · by_cases hc : e.valType = LogValType.appLog
    · rw [if_pos hc] at hx
      simp only [List.mem_singleton] at hx
      rw [hx]
      rfl
    · rw [if_neg hc] at hx
      simp at hx

theorem skip_sub (log : List LogEntry) :
    ∀ (entries : List LogEntry) (logIdx : Nat),
      ∃ k, k ≤ entries.length ∧
        skipPhase log logIdx entries = (logIdx + k, entries.drop k) ∧
        (∀ j, j < k → termAt log (logIdx + j) = (entries.getD j default).term) ∧
        (0 < k → logIdx + k ≤ log.length + 1) ∧
        (k < entries.length →
          ¬ (logIdx + k < log.length + 1) ∨
          termAt log (logIdx + k) ≠ (entries.getD k default).term) := by
  intro entries
  induction entries with
  | nil =>
    intro logIdx
    refine ⟨0, Nat.le_refl 0, by simp [skipPhase], ?_, ?_, ?_⟩
    · intro j hj
      omega
    · intro h0
      omega
    · intro h
      simp at h
  | cons e rest ih =>
    intro logIdx
    by_cases h1 : logIdx < log.length + 1
    · by_cases h2 : termAt log logIdx = e.term
      · obtain ⟨k, hk, heq, hterm, hbound, hstop⟩ := ih (logIdx + 1)
        refine ⟨k + 1, by simpa using Nat.succ_le_succ hk, ?_, ?_, ?_, ?_⟩
        · simp only [skipPhase, if_pos h1, if_pos h2]
          rw [heq]
          have h3 : logIdx + 1 + k = logIdx + (k + 1) := by omega
          rw [h3]
          rfl
        · intro j hj
          cases j with
          | zero => simpa using h2
          | succ j' =>
            have h4 : logIdx + (j' + 1) = logIdx + 1 + j' := by omega
            rw [h4]
            simpa using hterm j' (by omega)
        · intro _
          by_cases hk0 : 0 < k
          · have := hbound hk0
            omega
          · omega
        · intro hlt
          have h7 : k < rest.length := by
            simp only [List.length_cons] at hlt
            omega
          have h5 := hstop h7
          have h6 : logIdx + (k + 1) = logIdx + 1 + k := by omega
          rw [h6]
          simpa using h5
      · refine ⟨0, by omega, ?_, ?_, ?_, ?_⟩
        · simp [skipPhase, if_pos h1, if_neg h2]
        · intro j hj
          omega
        · intro h0
          omega
        · intro _
          right
          simpa using h2
    · refine ⟨0, by omega, ?_, ?_, ?_, ?_⟩
      · simp [skipPhase, if_neg h1]
      · intro j hj
        omega
      · intro h0
        omega
      · intro _
        left
        simpa using h1

theorem skip_all (log : List LogEntry) :
    ∀ (entries : List LogEntry) (logIdx : Nat),
      (∀ j, j < entries.length →
        termAt log (logIdx + j) = (entries.getD j default).term) →
      logIdx + entries.length ≤ log.length + 1 →
      skipPhase log logIdx entries = (logIdx + entries.length, []) := by
  intro entries
  induction entries with
  | nil => intro logIdx _ _; simp [skipPhase]
  | cons e rest ih =>
    intro logIdx hterm hlen
    have h1 : logIdx < log.length + 1 := by
      simp only [List.length_cons] at hlen
      omega
    have h2 : termAt log logIdx = e.term := by simpa using hterm 0 (by simp)
    simp only [skipPhase, if_pos h1, if_pos h2]
    rw [ih (logIdx + 1)
      (fun j hj => by
        have h4 : logIdx + 1 + j = logIdx + (j + 1) := by omega
        rw [h4]
        simpa using hterm (j + 1) (by simpa using Nat.succ_lt_succ hj))
      (by simp only [List.length_cons] at hlen; omega)]
    have h5 : logIdx + 1 + rest.length = logIdx + (e :: rest).length := by
      simp only [List.length_cons]
      omega
    rw [h5]

theorem ow_run (st : FollowerState) (logIdx : Nat) (tr : List Ev)
    (e : LogEntry) (rest : List LogEntry)
    (h : logIdx < st.log.length + 1) (h1 : 1 ≤ logIdx) :
    owPhase st logIdx tr (e :: rest) =
      (owNext st logIdx e, logIdx + 1, rest, tr ++ owTrace st logIdx e,
       st.stopping) := by
  have hstop : (owNext st logIdx e).stopping = st.stopping := rfl
  have hlen : (owNext st logIdx e).log.length = logIdx := by
    show (st.log.take (logIdx - 1) ++ [e]).length = logIdx
    rw [List.length_append, List.length_take]
    simp
    omega
  simp only [owPhase, if_pos h]
  rw [hstop]
  cases hs : st.stopping
  · simp only [Bool.false_eq_true, if_false]
    cases rest with
    | nil => simp [owPhase]
    | cons f fs =>
      have h2 : ¬ (logIdx + 1 < (owNext st logIdx e).log.length + 1) := by
        rw [hlen]
        omega
      simp only [owPhase, if_neg h2]
  · simp

theorem ow_stuck (st : FollowerState) (logIdx : Nat) (tr : List Ev)
    (e : LogEntry) (rest : List LogEntry)
    (h : ¬ logIdx < st.log.length + 1) :
    owPhase st logIdx tr (e :: rest) = (st, logIdx, e :: rest, tr, false) := by
  simp only [owPhase, if_neg h]

theorem ap_stop (st : FollowerState) (tr : List Ev) (e : LogEntry)
    (rest : List LogEntry) (h : st.stopping = true) :
    apPhase st tr (e :: rest) = (apNext st e, tr ++ apTrace st e, true) := by
  have hstop : (apNext st e).stopping = st.stopping := rfl
  simp only [apPhase, hstop, h, if_true]

theorem ap_run (entries : List LogEntry) :
    ∀ (st : FollowerState) (tr : List Ev), st.stopping = false →
    ∃ st' Δ, apPhase st tr entries = (st', tr ++ Δ, false) ∧
      st'.log = st.log ++ entries ∧
      st'.term = st.term ∧ st'.role = st.role ∧ st'.snapshot = st.snapshot ∧
      st'.stopping = false ∧ st'.initialized = st.initialized ∧
      st'.catchingUp = st.catchingUp ∧ st'.leaderId = st.leaderId ∧
      st'.leaderCommitIndex = st.leaderCommitIndex ∧
      st'.smCommitIndex = st.smCommitIndex ∧
      st'.quickCommitIndex = st.quickCommitIndex ∧
      (∀ x ∈ Δ, phaseEv x = true) := by
  induction entries with
  | nil =>
    intro st tr h
    exact ⟨st, [], by simp [apPhase], by simp, rfl, rfl, rfl, h, rfl, rfl, rfl,
      rfl, rfl, rfl, by simp⟩
  | cons e rest ih =>
    intro st tr h
    have hstop : (apNext st e).stopping = st.stopping := rfl
    obtain ⟨st', Δ, heq, hlog, hterm, hrole, hsnap, hs, hinit, hcat, hlid,
      hlci, hsm, hqci, hev⟩ :=
      ih (apNext st e) (tr ++ apTrace st e) (by rw [hstop]; exact h)
    refine ⟨st', apTrace st e ++ Δ, ?_, ?_, hterm, hrole, hsnap, hs, hinit,
      hcat, hlid, hlci, hsm, hqci, ?_⟩
    · simp only [apPhase, hstop, h, Bool.false_eq_true, if_false]
      rw [heq, List.append_assoc]
    · rw [hlog]
      show (st.log ++ [e]) ++ rest = st.log ++ e :: rest
      rw [List.append_assoc]
      rfl
    · intro x hx
      rcases List.mem_append.mp hx with hx | hx
      · exact phaseEv_apTrace st e x hx
      · exact hev x hx

theorem wp_cases (st : FollowerState) (req : AppendReq)
    (hne : 0 < req.entries.length) :
    ∃ k, k ≤ req.entries.length ∧
      (∀ j, j < k → termAt st.log (req.lastLogIdx + 1 + j)
        = (req.entries.getD j default).term) ∧
      (0 < k → req.lastLogIdx + 1 + k ≤ st.log.length + 1) ∧
      (k < req.entries.length →
        ¬ (req.lastLogIdx + 1 + k < st.log.length + 1) ∨
        termAt st.log (req.lastLogIdx + 1 + k)
          ≠ (req.entries.getD k default).term) ∧
      ((k = req.entries.length ∧
         writePhases st req =
           (st, [Ev.batchEnd (req.lastLogIdx + 1) req.entries.length],
            false)) ∨
       (∃ e rest, req.entries.drop k = e :: rest ∧
         req.lastLogIdx + 1 + k < st.log.length + 1 ∧ st.stopping = true ∧
         writePhases st req =
           (owNext st (req.lastLogIdx + 1 + k) e,
            owTrace st (req.lastLogIdx + 1 + k) e, true)) ∨
       (∃ e rest st' Δ, req.entries.drop k = e :: rest ∧
         req.lastLogIdx + 1 + k < st.log.length + 1 ∧ st.stopping = false ∧
         st'.log = (st.log.take (req.lastLogIdx + k) ++ [e]) ++ rest ∧
         coreSame st st' ∧
         st'.smCommitIndex
           = (owNext st (req.lastLogIdx + 1 + k) e).smCommitIndex ∧
         st'.quickCommitIndex
           = (owNext st (req.lastLogIdx + 1 + k) e).quickCommitIndex ∧
         (∀ x ∈ Δ, phaseEv x = true) ∧
         writePhases st req =
           (st', (owTrace st (req.lastLogIdx + 1 + k) e ++ Δ) ++
             [Ev.batchEnd (req.lastLogIdx + 1) req.entries.length], false)) ∨
       (∃ e rest, req.entries.drop k = e :: rest ∧
         ¬ (req.lastLogIdx + 1 + k < st.log.length + 1) ∧ st.stopping = true ∧
         writePhases st req = (apNext st e, apTrace st e, true)) ∨
       (∃ e rest st' Δ, req.entries.drop k = e :: rest ∧
         ¬ (req.lastLogIdx + 1 + k < st.log.length + 1) ∧
         st.stopping = false ∧
         st'.log = st.log ++ (e :: rest) ∧
         coreSame st st' ∧
         st'.smCommitIndex = st.smCommitIndex ∧
         st'.quickCommitIndex = st.quickCommitIndex ∧
         (∀ x ∈ Δ, phaseEv x = true) ∧
         writePhases st req =
           (st', Δ ++ [Ev.batchEnd (req.lastLogIdx + 1) req.entries.length],
            false))) := by
  obtain ⟨k, hk, hskip, hterm, hbound, hstop⟩ :=
    skip_sub st.log req.entries (req.lastLogIdx + 1)
  refine ⟨k, hk, hterm, hbound, hstop, ?_⟩
  have hwp : writePhases st req =
      (let ow := owPhase st (req.lastLogIdx + 1 + k) [] (req.entries.drop k)
       if ow.2.2.2.2 then (ow.1, ow.2.2.2.1, true)
       else
         let ap := apPhase ow.1 ow.2.2.2.1 ow.2.2.1
         if ap.2.2 then (ap.1, ap.2.1, true)
         else (ap.1, ap.2.1 ++
           [Ev.batchEnd (req.lastLogIdx + 1) req.entries.length], false)) := by
    unfold writePhases
    rw [if_pos hne, hskip]
  rcases hdrop : req.entries.drop k with _ | ⟨e, rest⟩
  · left
    have hklen : k = req.entries.length := by
      have := List.drop_eq_nil_iff.mp hdrop
      omega
    refine ⟨hklen, ?_⟩
    rw [hwp, hdrop]
    simp [owPhase, apPhase]
  · have h1k : 1 ≤ req.lastLogIdx + 1 + k := by omega
    by_cases hlt : req.lastLogIdx + 1 + k < st.log.length + 1
    · rw [hwp, hdrop, ow_run st (req.lastLogIdx + 1 + k) [] e rest hlt h1k]
      cases hs : st.stopping
      · -- not stopping: overwrite one entry, then append the tail
        right; right; left
        have howstop : (owNext st (req.lastLogIdx + 1 + k) e).stopping
            = false := hs
        obtain ⟨st', Δ, heq, hlog, hterm2, hrole, hsnap2, hstop2, hinit, hcat,
          hlid, hlci, hsm, hqci, hev⟩ :=
          ap_run rest (owNext st (req.lastLogIdx + 1 + k) e)
            ([] ++ owTrace st (req.lastLogIdx + 1 + k) e) howstop
        refine ⟨e, rest, st', Δ, rfl, hlt, rfl, ?_, ?_, hsm, hqci, hev, ?_⟩
        · have harith : req.lastLogIdx + 1 + k - 1 = req.lastLogIdx + k := by
            omega
          have hshape :
              (owNext st (req.lastLogIdx + 1 + k) e).log ++ rest
                = (st.log.take (req.lastLogIdx + k) ++ [e]) ++ rest := by
            show (st.log.take (req.lastLogIdx + 1 + k - 1) ++ [e]) ++ rest = _
            rw [harith]
          exact hlog.trans hshape
        · exact ⟨hterm2.trans rfl, hrole.trans rfl, hsnap2.trans rfl,
            hstop2.trans hs.symm, hinit.trans rfl, hcat.trans rfl,
            hlid.trans rfl, hlci.trans rfl⟩
        · simp only [Bool.false_eq_true, if_false]
          rw [heq]
          simp
      · -- stopping: handler returns right after the first overwrite
        right; left
        exact ⟨e, rest, rfl, hlt, rfl, by simp⟩
    · rw [hwp, hdrop, ow_stuck st (req.lastLogIdx + 1 + k) [] e rest hlt]
      cases hs : st.stopping
      · right; right; right; right
        obtain ⟨st', Δ, heq, hlog, hterm2, hrole, hsnap2, hstop2, hinit, hcat,
          hlid, hlci, hsm, hqci, hev⟩ := ap_run (e :: rest) st [] hs
        refine ⟨e, rest, st', Δ, rfl, hlt, rfl, hlog, ?_, hsm, hqci, hev, ?_⟩
        · exact ⟨hterm2, hrole, hsnap2, hstop2.trans hs.symm, hinit, hcat,
            hlid, hlci⟩
        · simp only [Bool.false_eq_true, if_false]
          rw [heq]
          simp
      · right; right; right; left
        refine ⟨e, rest, rfl, hlt, rfl, ?_⟩
        simp only [Bool.false_eq_true, if_false]
        rw [ap_stop st [] e rest hs]
        simp

theorem termAt_appended (log entries : List LogEntry) (base k : Nat)
    (l2 : List LogEntry)
    (hdrop : entries.drop k = l2)
    (hk : k ≤ entries.length)
    (hlen : log.length = base + k)
    (hterm : ∀ j, j < k →
      termAt log (base + 1 + j) = (entries.getD j default).term) :
    ∀ j, j < entries.length →
      termAt (log ++ l2) (base + 1 + j)
        = (entries.getD j default).term := by
  have hrest : entries.length = k + l2.length := by
    have hdl := congrArg List.length hdrop
    rw [List.length_drop] at hdl
    omega
  intro j hj
  by_cases hjk : j < k
  · rw [termAt_append_left log l2 (base + 1 + j) (by omega) (by omega)]
    exact hterm j hjk
  · have hidx : base + 1 + j = log.length + 1 + (j - k) := by omega
    rw [hidx, termAt_append_right log l2 (j - k) (by omega)]
    have hgd := getD_drop entries k (j - k)
    rw [hdrop] at hgd
    have hkj : k + (j - k) = j := by omega
    rw [hkj] at hgd
    exact congrArg LogEntry.term hgd

theorem termAt_reconciled (log entries : List LogEntry) (base k : Nat)
    (e : LogEntry) (rest : List LogEntry)
    (hdrop : entries.drop k = e :: rest)
    (hlt : base + 1 + k < log.length + 1)
    (hterm : ∀ j, j < k →
      termAt log (base + 1 + j) = (entries.getD j default).term) :
    ∀ j, j < entries.length →
      termAt ((log.take (base + k) ++ [e]) ++ rest) (base + 1 + j)
        = (entries.getD j default).term := by
  have hk1 : k < entries.length := by
    by_contra hcon
    rw [List.drop_eq_nil_iff.mpr (by omega)] at hdrop
    exact List.noConfusion hdrop
  have hdrop' : entries.drop (k + 1) = rest := by
    have hdd : entries.drop (k + 1) = (entries.drop k).drop 1 := by
      rw [List.drop_drop]
    rw [hdd, hdrop]
    simp
  have hlenA : (log.take (base + k) ++ [e]).length = base + (k + 1) := by
    rw [List.length_append, List.length_take]
    simp
    omega
  have hgdk : (entries.getD k default) = e := by
    have hgd := getD_drop entries k 0
    rw [hdrop] at hgd
    simpa using hgd.symm
  apply termAt_appended (log.take (base + k) ++ [e]) entries base (k + 1) rest
    hdrop' (by omega) hlenA
  intro j hjk
  by_cases hjk' : j < k
  · have harith : base + k = (base + 1 + k) - 1 := by omega
    rw [harith, termAt_take_append log (base + 1 + k) (base + 1 + j) e
      (by omega) (by omega) (by omega)]
    exact hterm j hjk'
  · have hjeq : j = k := by omega
    subst hjeq
    have harith : base + j = (base + 1 + j) - 1 := by omega
    rw [harith, termAt_take_append_self log (base + 1 + j) e (by omega)
      (by omega)]
    rw [hgdk]

theorem wp_empty (st : FollowerState) (req : AppendReq)
    (h : req.entries.length = 0) : writePhases st req = (st, [], false) := by
  unfold writePhases
  rw [if_neg (by omega)]

theorem wp_accept (st : FollowerState) (req : AppendReq) (st' : FollowerState)
    (tr : List Ev)
    (hne : 0 < req.entries.length)
    (hidx : req.lastLogIdx + 1 ≤ st.log.length + 1)
    (hout : writePhases st req = (st', tr, false)) :
    coreSame st st' ∧
    req.lastLogIdx + req.entries.length ≤ st'.log.length ∧
    (∀ j, j < req.entries.length →
      termAt st'.log (req.lastLogIdx + 1 + j)
        = (req.entries.getD j default).term) ∧
    (∀ m, 1 ≤ m → m ≤ req.lastLogIdx → termAt st'.log m = termAt st.log m) ∧
    st'.quickCommitIndex ≤ max st.quickCommitIndex st'.log.length ∧
    (∃ Δ, tr = Δ ++ [Ev.batchEnd (req.lastLogIdx + 1) req.entries.length] ∧
      ∀ x ∈ Δ, phaseEv x = true) := by
  obtain ⟨k, hk, hterm, hbound, hstop, hcase⟩ := wp_cases st req hne
  rcases hcase with ⟨hklen, heq⟩ | ⟨e, rest, hdrop, hlt, hs, heq⟩ |
    ⟨e, rest, st2, Δ, hdrop, hlt, hs, hlog, hcore, hsm, hqci, hev, heq⟩ |
    ⟨e, rest, hdrop, hlt, hs, heq⟩ |
    ⟨e, rest, st2, Δ, hdrop, hlt, hs, hlog, hcore, hsm, hqci, hev, heq⟩
  · -- all entries already present: no write happened
    rw [heq] at hout
    simp only [Prod.mk.injEq] at hout
    obtain ⟨h1, h2, -⟩ := hout
    subst h1
    refine ⟨coreSame_refl st, by omega, ?_, ?_, by omega, [], h2.symm, by simp⟩
    · intro j hj
      exact hterm j (by omega)
    · intro m _ _
      rfl
  · rw [heq] at hout
    simp only [Prod.mk.injEq] at hout
    exact absurd hout.2.2 (by simp)
  · -- a divergent suffix was overwritten and the tail appended
    rw [heq] at hout
    simp only [Prod.mk.injEq] at hout
    obtain ⟨h1, h2, -⟩ := hout
    subst h1
    have hk1 : k < req.entries.length := by
      by_contra hcon
      rw [List.drop_eq_nil_iff.mpr (by omega)] at hdrop
      exact List.noConfusion hdrop
    have hrest : req.entries.length = k + (rest.length + 1) := by
      have hdl := congrArg List.length hdrop
      rw [List.length_drop] at hdl
      simp only [List.length_cons] at hdl
      omega
    have hA : (st.log.take (req.lastLogIdx + k) ++ [e]).length
        = req.lastLogIdx + k + 1 := by
      rw [List.length_append, List.length_take]
      simp
      omega
    have hlen' : st2.log.length = req.lastLogIdx + req.entries.length := by
      rw [hlog, List.length_append, hA]
      omega
    refine ⟨hcore, by omega, ?_, ?_, ?_,
      owTrace st (req.lastLogIdx + 1 + k) e ++ Δ, h2.symm, ?_⟩
    · intro j hj
      rw [hlog]
      exact termAt_reconciled st.log req.entries req.lastLogIdx k e rest
        hdrop hlt hterm j hj
    · intro m hm1 hm2
      rw [hlog, termAt_append_left _ rest m (by omega) (by rw [hA]; omega)]
      have harith : req.lastLogIdx + k = (req.lastLogIdx + 1 + k) - 1 := by
        omega
      rw [harith, termAt_take_append st.log (req.lastLogIdx + 1 + k) m e
        (by omega) (by omega) (by omega)]
    · rw [hqci]
      show (if req.lastLogIdx + 1 + k ≤ st.smCommitIndex
            then req.lastLogIdx + 1 + k - 1 else st.quickCommitIndex) ≤ _
      split <;> omega
    · intro x hx
      rcases List.mem_append.mp hx with hx | hx
      · exact phaseEv_owTrace st (req.lastLogIdx + 1 + k) e x hx
      · exact hev x hx
  · rw [heq] at hout
    simp only [Prod.mk.injEq] at hout
    exact absurd hout.2.2 (by simp)
  · -- the whole suffix was appended past the end of the log
    rw [heq] at hout
    simp only [Prod.mk.injEq] at hout
    obtain ⟨h1, h2, -⟩ := hout
    subst h1
    have hk1 : k < req.entries.length := by
      by_contra hcon
      rw [List.drop_eq_nil_iff.mpr (by omega)] at hdrop
      exact List.noConfusion hdrop
    have hrest : req.entries.length = k + (rest.length + 1) := by
      have hdl := congrArg List.length hdrop
      rw [List.length_drop] at hdl
      simp only [List.length_cons] at hdl
      omega
    have hlen0 : st.log.length = req.lastLogIdx + k := by
      by_cases hk0 : 0 < k
      · have := hbound hk0
        omega
      · omega
    have hlen' : st2.log.length = req.lastLogIdx + req.entries.length := by
      rw [hlog, List.length_append]
      simp only [List.length_cons]
      omega
    refine ⟨hcore, by omega, ?_, ?_, by omega, Δ, h2.symm, hev⟩
    · intro j hj
      rw [hlog]
      exact termAt_appended st.log req.entries req.lastLogIdx k (e :: rest)
        hdrop (by omega) hlen0 hterm j hj
    · intro m hm1 hm2
      rw [hlog, termAt_append_left st.log (e :: rest) m (by omega) (by omega)]

theorem wp_replay (st : FollowerState) (req : AppendReq)
    (hlen : req.lastLogIdx + req.entries.length ≤ st.log.length)
    (hterm : ∀ j, j < req.entries.length →
      termAt st.log (req.lastLogIdx + 1 + j)
        = (req.entries.getD j default).term) :
    writePhases st req =
      (st, if 0 < req.entries.length
           then [Ev.batchEnd (req.lastLogIdx + 1) req.entries.length] else [],
       false) := by
  by_cases hne : 0 < req.entries.length
  · rw [if_pos hne]
    unfold writePhases
    rw [if_pos hne,
      skip_all st.log req.entries (req.lastLogIdx + 1) hterm (by omega)]
    simp [owPhase, apPhase]
  · rw [if_neg hne, wp_empty st req (by omega)]

theorem wp_early_events (st : FollowerState) (req : AppendReq)
    (st' : FollowerState) (tr : List Ev)
    (hout : writePhases st req = (st', tr, true)) :
    ∀ x ∈ tr, phaseEv x = true := by
  by_cases hne : 0 < req.entries.length
  · obtain ⟨k, hk, hterm, hbound, hstop, hcase⟩ := wp_cases st req hne
    rcases hcase with ⟨hklen, heq⟩ | ⟨e, rest, hdrop, hlt, hs, heq⟩ |
      ⟨e, rest, st2, Δ, hdrop, hlt, hs, hlog, hcore, hsm, hqci, hev, heq⟩ |
      ⟨e, rest, hdrop, hlt, hs, heq⟩ |
      ⟨e, rest, st2, Δ, hdrop, hlt, hs, hlog, hcore, hsm, hqci, hev, heq⟩
    · rw [heq] at hout
      simp only [Prod.mk.injEq] at hout
      exact absurd hout.2.2 (by simp)
    · rw [heq] at hout
      simp only [Prod.mk.injEq] at hout
      obtain ⟨-, h2, -⟩ := hout
      rw [← h2]
      exact phaseEv_owTrace st (req.lastLogIdx + 1 + k) e
    · rw [heq] at hout
      simp only [Prod.mk.injEq] at hout
      exact absurd hout.2.2 (by simp)
    · rw [heq] at hout
      simp only [Prod.mk.injEq] at hout
      obtain ⟨-, h2, -⟩ := hout
      rw [← h2]
      exact phaseEv_apTrace st e
    · rw [heq] at hout
      simp only [Prod.mk.injEq] at hout
      exact absurd hout.2.2 (by simp)
  · rw [wp_empty st req (by omega)] at hout
    simp only [Prod.mk.injEq] at hout
    exact absurd hout.2.2 (by simp)

theorem wp_early_log (st : FollowerState) (req : AppendReq)
    (st' : FollowerState) (tr : List Ev)
    (hout : writePhases st req = (st', tr, true)) :
    st'.log ≠ st.log := by
  by_cases hne : 0 < req.entries.length
  · obtain ⟨k, hk, hterm, hbound, hstop, hcase⟩ := wp_cases st req hne
    rcases hcase with ⟨hklen, heq⟩ | ⟨e, rest, hdrop, hlt, hs, heq⟩ |
      ⟨e, rest, st2, Δ, hdrop, hlt, hs, hlog, hcore, hsm, hqci, hev, heq⟩ |
      ⟨e, rest, hdrop, hlt, hs, heq⟩ |
      ⟨e, rest, st2, Δ, hdrop, hlt, hs, hlog, hcore, hsm, hqci, hev, heq⟩
    · rw [heq] at hout
      simp only [Prod.mk.injEq] at hout
      exact absurd hout.2.2 (by simp)
    · -- stopped right after the overwrite: the term at the write position
      -- differs from the old log
      rw [heq] at hout
      simp only [Prod.mk.injEq] at hout
      obtain ⟨h1, -, -⟩ := hout
      have hk1 : k < req.entries.length := by
        by_contra hcon
        rw [List.drop_eq_nil_iff.mpr (by omega)] at hdrop
        exact List.noConfusion hdrop
      have hgdk : (req.entries.getD k default) = e := by
        have hgd := getD_drop req.entries k 0
        rw [hdrop] at hgd
        simpa using hgd.symm
      have hmis : termAt st.log (req.lastLogIdx + 1 + k) ≠ e.term := by
        rcases hstop hk1 with hcon | hmis
        · exact absurd hlt hcon
        · rw [hgdk] at hmis
          exact hmis
      intro hcon
      have hself : termAt st'.log (req.lastLogIdx + 1 + k) = e.term := by
        rw [← h1]
        show termAt (st.log.take (req.lastLogIdx + 1 + k - 1) ++ [e]) _ = _
        exact termAt_take_append_self st.log (req.lastLogIdx + 1 + k) e
          (by omega) (by omega)
      rw [hcon] at hself
      exact hmis hself
    · rw [heq] at hout
      simp only [Prod.mk.injEq] at hout
      exact absurd hout.2.2 (by simp)
    · -- stopped right after the first append: the log grew
      rw [heq] at hout
      simp only [Prod.mk.injEq] at hout
      obtain ⟨h1, -, -⟩ := hout
      intro hcon
      have hlenc := congrArg List.length hcon
      rw [← h1] at hlenc
      have hlenc2 : (st.log ++ [e]).length = st.log.length := hlenc
      rw [List.length_append] at hlenc2
      simp at hlenc2
    · rw [heq] at hout
      simp only [Prod.mk.injEq] at hout
      exact absurd hout.2.2 (by simp)
  · rw [wp_empty st req (by omega)] at hout
    simp only [Prod.mk.injEq] at hout
    exact absurd hout.2.2 (by simp)

theorem wp_stopping_ok (st : FollowerState) (req : AppendReq)
    (st' : FollowerState) (tr : List Ev)
    (hs : st.stopping = true)
    (hout : writePhases st req = (st', tr, false)) :
    st' = st ∧ ∀ x ∈ tr, phaseEv x = false := by
  by_cases hne : 0 < req.entries.length
  · obtain ⟨k, hk, hterm, hbound, hstop, hcase⟩ := wp_cases st req hne
    rcases hcase with ⟨hklen, heq⟩ | ⟨e, rest, hdrop, hlt, hs2, heq⟩ |
      ⟨e, rest, st2, Δ, hdrop, hlt, hs2, hlog, hcore, hsm, hqci, hev, heq⟩ |
      ⟨e, rest, hdrop, hlt, hs2, heq⟩ |
      ⟨e, rest, st2, Δ, hdrop, hlt, hs2, hlog, hcore, hsm, hqci, hev, heq⟩
    · rw [heq] at hout
      simp only [Prod.mk.injEq] at hout
      obtain ⟨h1, h2, -⟩ := hout
      refine ⟨h1.symm, ?_⟩
      rw [← h2]
      intro x hx
      simp only [List.mem_singleton] at hx
      rw [hx]
      rfl
    · rw [heq] at hout
      simp only [Prod.mk.injEq] at hout
      exact absurd hout.2.2 (by simp)
    · rw [hs] at hs2
      exact absurd hs2 (by simp)
    · rw [heq] at hout
      simp only [Prod.mk.injEq] at hout
      exact absurd hout.2.2 (by simp)
    · rw [hs] at hs2
      exact absurd hs2 (by simp)
  · rw [wp_empty st req (by omega)] at hout
    simp only [Prod.mk.injEq] at hout
    obtain ⟨h1, h2, -⟩ := hout
    refine ⟨h1.symm, ?_⟩
    rw [← h2]
    intro x hx
    simp at hx

theorem handle_accept_char (st0 : FollowerState) (req : AppendReq)
    (r : AppendResp) (st' : FollowerState) (tr : List Ev)
    (h : handleAppendEntries st0 req = (some r, st', tr))
    (hacc : r.accepted = true) :
    ∃ stp trp,
      ¬ (req.term = st0.term ∧ st0.role = SrvRole.leader) ∧
      ¬ (req.term < st0.term) ∧
      logOkay st0.log st0.snapshot req = true ∧
      writePhases (acceptMid st0 req) req = (stp, trp, false) ∧
      st' = commitAdvance
              { stp with leaderId := req.src,
                         leaderCommitIndex := req.commitIdx }
              (min req.commitIdx stp.log.length) ∧
      tr = trp ++ [Ev.commitCall (min req.commitIdx stp.log.length)] ∧
      r = ⟨st0.term, req.lastLogIdx + req.entries.length + 1, true⟩ := by
  obtain ⟨htm0, hlog0, hsnap0, -, -, -, -, -, -, -, -, -⟩ :=
    roleReconcile_fields st0 req
  unfold handleAppendEntries at h
  by_cases h1 : req.term = st0.term ∧ st0.role = SrvRole.leader
  · rw [if_pos h1] at h
    have h_1 := congrArg Prod.fst h
    exact absurd h_1 (by simp)
  · rw [if_neg h1] at h
    by_cases h2 : req.term < (roleReconcile st0 req).term ∨
        logOkay (roleReconcile st0 req).log (roleReconcile st0 req).snapshot
          req = false
    · rw [if_pos h2] at h
      have h_1 := Option.some.inj (congrArg Prod.fst h)
      rw [← h_1] at hacc
      exact absurd hacc (by simp)
    · rw [if_neg h2] at h
      rcases hw : writePhases (acceptMid st0 req) req with ⟨stp, trp, early⟩
      rw [hw] at h
      cases early
      · have h_1 := Option.some.inj (congrArg Prod.fst h)
        have h_2 := congrArg (fun p =>
          (p : Option AppendResp × FollowerState × List Ev).2.1) h
        have h_3 := congrArg (fun p =>
          (p : Option AppendResp × FollowerState × List Ev).2.2) h
        simp only at h_2 h_3
        push_neg at h2
        obtain ⟨h2a, h2b⟩ := h2
        refine ⟨stp, trp, h1, ?_, ?_, rfl, h_2.symm, h_3.symm, ?_⟩
        · rw [htm0] at h2a
          omega
        · rw [hlog0, hsnap0] at h2b
          simpa using h2b
        · rw [← h_1, htm0]
      · have h_1 := Option.some.inj (congrArg Prod.fst h)
        rw [← h_1] at hacc
        exact absurd hacc (by simp)

theorem handle_unfold_none (st0 : FollowerState) (req : AppendReq)
    (h1 : req.term = st0.term ∧ st0.role = SrvRole.leader) :
    handleAppendEntries st0 req
      = (none, { st0 with catchingUp := false }, []) := by
  unfold handleAppendEntries
  rw [if_pos h1]

theorem handle_unfold_reject (st0 : FollowerState) (req : AppendReq)
    (hnl : ¬ (req.term = st0.term ∧ st0.role = SrvRole.leader))
    (hcond : req.term < st0.term ∨
      logOkay st0.log st0.snapshot req = false) :
    handleAppendEntries st0 req
      = (some ⟨st0.term, st0.log.length + 1, false⟩,
         roleReconcile st0 req, []) := by
  obtain ⟨htm0, hlog0, hsnap0, -, -, -, -, -, -, -, -, -⟩ :=
    roleReconcile_fields st0 req
  have hcond' : req.term < (roleReconcile st0 req).term ∨
      logOkay (roleReconcile st0 req).log (roleReconcile st0 req).snapshot
        req = false := by
    rw [htm0, hlog0, hsnap0]
    exact hcond
  unfold handleAppendEntries
  rw [if_neg hnl, if_pos hcond', htm0, hlog0]

theorem handle_unfold_early (st0 : FollowerState) (req : AppendReq)
    (stp : FollowerState) (trp : List Ev)
    (hnl : ¬ (req.term = st0.term ∧ st0.role = SrvRole.leader))
    (hcond : ¬ (req.term < st0.term ∨
      logOkay st0.log st0.snapshot req = false))
    (hw : writePhases (acceptMid st0 req) req = (stp, trp, true)) :
    handleAppendEntries st0 req
      = (some ⟨st0.term, st0.log.length + 1, false⟩, stp, trp) := by
  obtain ⟨htm0, hlog0, hsnap0, -, -, -, -, -, -, -, -, -⟩ :=
    roleReconcile_fields st0 req
  have hcond' : ¬ (req.term < (roleReconcile st0 req).term ∨
      logOkay (roleReconcile st0 req).log (roleReconcile st0 req).snapshot
        req = false) := by
    rw [htm0, hlog0, hsnap0]
    exact hcond
  unfold handleAppendEntries
  rw [if_neg hnl, if_neg hcond', hw, htm0, hlog0]
  rfl

theorem handle_unfold_accept (st0 : FollowerState) (req : AppendReq)
    (stp : FollowerState) (trp : List Ev)
    (hnl : ¬ (req.term = st0.term ∧ st0.role = SrvRole.leader))
    (hcond : ¬ (req.term < st0.term ∨
      logOkay st0.log st0.snapshot req = false))
    (hw : writePhases (acceptMid st0 req) req = (stp, trp, false)) :
    handleAppendEntries st0 req
      = (some ⟨st0.term, req.lastLogIdx + req.entries.length + 1, true⟩,
         commitAdvance
           { stp with leaderId := req.src, leaderCommitIndex := req.commitIdx }
           (min req.commitIdx stp.log.length),
         trp ++ [Ev.commitCall (min req.commitIdx stp.log.length)]) := by
  obtain ⟨htm0, hlog0, hsnap0, -, -, -, -, -, -, -, -, -⟩ :=
    roleReconcile_fields st0 req
  have hcond' : ¬ (req.term < (roleReconcile st0 req).term ∨
      logOkay (roleReconcile st0 req).log (roleReconcile st0 req).snapshot
        req = false) := by
    rw [htm0, hlog0, hsnap0]
    exact hcond
  unfold handleAppendEntries
  rw [if_neg hnl, if_neg hcond', hw, htm0]
  rfl

theorem acceptMid_fields (st0 : FollowerState) (req : AppendReq) :
    (acceptMid st0 req).term = st0.term ∧
    (acceptMid st0 req).log = st0.log ∧
    (acceptMid st0 req).snapshot = st0.snapshot ∧
    (acceptMid st0 req).stopping = st0.stopping ∧
    (acceptMid st0 req).smCommitIndex = st0.smCommitIndex ∧
    (acceptMid st0 req).quickCommitIndex = st0.quickCommitIndex ∧
    (acceptMid st0 req).leaderId = st0.leaderId ∧
    (acceptMid st0 req).leaderCommitIndex = st0.leaderCommitIndex ∧
    (acceptMid st0 req).catchingUp = false ∧
    (acceptMid st0 req).initialized = true ∧
    (acceptMid st0 req).configChanging = st0.configChanging ∧
    (acceptMid st0 req).role =
      (if req.term = st0.term ∧ st0.role = SrvRole.candidate
       then SrvRole.follower else st0.role) := by
  obtain ⟨h1, h2, h3, h4, h5, h6, h7, h8, -, h10, h11, h12⟩ :=
    roleReconcile_fields st0 req
  exact ⟨h1, h2, h3, h4, h5, h6, h7, h8, h10, rfl, h11, h12⟩

theorem logOkay_bound (log : List LogEntry) (snp : Option Snapshot)
    (req : AppendReq)
    (hok : logOkay log snp req = true)
    (hsnap : ∀ s, snp = some s → s.lastLogIdx ≤ log.length) :
    req.lastLogIdx ≤ log.length := by
  by_cases h0 : req.lastLogIdx = 0
  · omega
  by_cases hc : req.lastLogIdx < log.length + 1
  · omega
  rcases hsnp : snp with _ | s
  · rw [hsnp] at hok
    simp only [logOkay, if_neg hc] at hok
    simp only [Bool.or_eq_true, Bool.and_eq_true, beq_iff_eq,
      bne_iff_ne] at hok
    rcases hok with (h | ⟨h, -⟩) | h
    · omega
    · omega
    · simp at h
  · rw [hsnp] at hok
    simp only [logOkay, if_neg hc] at hok
    simp only [Bool.or_eq_true, Bool.and_eq_true, beq_iff_eq,
      bne_iff_ne] at hok
    rcases hok with (h | ⟨h, -⟩) | ⟨h, -⟩
    · omega
    · omega
    · have := hsnap s hsnp
      omega

/-! ## Claim C10 -/

/-- Claim C10 (confirmed): on the rejected path, whenever
`resp.next_idx == 0` or `resp.next_idx ≥` the peer's current
`next_log_idx`, `next_log_idx` is decremented by one with no lower-bound
guard — the 64-bit unsigned decrement — and in particular from
`next_log_idx = 0` it wraps to `2^64 - 1`. -/
theorem rejected_unguarded_decrement_wraps (p : Peer) (n : Nat)
    (h : n = 0 ∨ p.nextLogIdx ≤ n) :
    (rejectedPeerUpdate p n).nextLogIdx = (p.nextLogIdx + (U64 - 1)) % U64 ∧
    (p.nextLogIdx = 0 → (rejectedPeerUpdate p n).nextLogIdx = U64 - 1) := by
  have hc : ¬ (0 < n ∧ n < p.nextLogIdx) := by omega
  refine ⟨?_, ?_⟩
  · unfold rejectedPeerUpdate
    rw [if_neg hc]
  · intro h0
    unfold rejectedPeerUpdate
    rw [if_neg hc]
    simp only [h0, U64]

theorem rejected_unguarded_decrement_wraps_witness :
    ((0 : Nat) = 0 ∨ peerC10.nextLogIdx ≤ 0) ∧
    (rejectedPeerUpdate peerC10 0).nextLogIdx = 18446744073709551615 := by
  refine ⟨Or.inl rfl, ?_⟩
  have h := (rejected_unguarded_decrement_wraps peerC10 0 (Or.inl rfl)).2 rfl
  exact h.trans (by decide)

/-! ## Claim C8 -/

/-- Claim C8 counterexample: a rejected response whose `next_idx`
triggers the unguarded decrement breaks `matched_idx ≤ next_log_idx - 1`
on a peer that satisfied it (`matched_idx = 5`, `next_log_idx = 6`
becomes `matched_idx = 5`, `next_log_idx = 5`). -/
theorem rejected_path_breaks_matched_invariant :
    peerInv peerC8 ∧ ¬ peerInv (rejectedPeerUpdate peerC8 0) := by
  simp only [peerInv]
  constructor
  · decide
  · decide

/-- Claim C8 (amended): the accepted path establishes
`matched_idx = next_idx - 1 < next_log_idx`, but the rejected path
preserves `matched_idx ≤ next_log_idx - 1` only when the regressed
`next_log_idx` stays above `matched_idx`: on fast-jump this needs
`matched_idx < resp.next_idx`, and on the unguarded decrement it needs
`matched_idx + 2 ≤ next_log_idx`; the rejected path never touches
`matched_idx`. -/
theorem matched_invariant_update_behavior :
    (∀ (p : Peer) (n : Nat), 1 ≤ n → n < U64 →
        (acceptedPeerUpdate p n).nextLogIdx = n ∧
        (acceptedPeerUpdate p n).matchedIdx = n - 1 ∧
        peerInv (acceptedPeerUpdate p n)) ∧
    (∀ (p : Peer) (n : Nat),
        (rejectedPeerUpdate p n).matchedIdx = p.matchedIdx ∧
        (0 < n ∧ n < p.nextLogIdx → p.matchedIdx < n →
          peerInv (rejectedPeerUpdate p n)) ∧
        (¬ (0 < n ∧ n < p.nextLogIdx) → p.nextLogIdx < U64 →
          p.matchedIdx + 2 ≤ p.nextLogIdx →
          peerInv (rejectedPeerUpdate p n))) := by
  constructor
  · intro p n h1 h2
    have hm := u64_pred_mod n h1 h2
    refine ⟨rfl, ?_, ?_⟩
    · simpa [acceptedPeerUpdate] using hm
    · simp only [peerInv, acceptedPeerUpdate, hm]
      omega
  · intro p n
    refine ⟨?_, ?_, ?_⟩
    · unfold rejectedPeerUpdate
      split <;> rfl
    · intro hc hlt
      simp only [peerInv, rejectedPeerUpdate, if_pos hc]
      exact hlt
    · intro hc hU hge
      have hm := u64_pred_mod p.nextLogIdx (by omega) hU
      simp only [peerInv, rejectedPeerUpdate, if_neg hc, hm]
      omega

theorem matched_invariant_update_behavior_witness :
    peerInv (acceptedPeerUpdate peerC8 9) ∧
    peerInv (rejectedPeerUpdate ⟨1, 9, 3, false, 0, 0⟩ 5) ∧
    peerInv (rejectedPeerUpdate ⟨1, 9, 3, false, 0, 0⟩ 0) :=
  ⟨((matched_invariant_update_behavior.1 peerC8 9 (by decide) (by decide))).2.2,
   (matched_invariant_update_behavior.2 ⟨1, 9, 3, false, 0, 0⟩ 5).2.1
     (by decide) (by decide),
   (matched_invariant_update_behavior.2 ⟨1, 9, 3, false, 0, 0⟩ 0).2.2
     (by decide) (by decide) (by decide)⟩

/-! ## Claim C5 -/

/-- Claim C5 counterexample: the peer's `last_sent_idx` equals
`last_log_idx + 1` (the previous request was not applied), yet the
counter is reset to 0 instead of incremented, because the additional
source condition `last_log_idx + 2 < end_idx` fails (only one entry is
available to ship). -/
theorem retry_counter_reset_despite_resend :
    peerC5.lastSentIdx = (peerC5.nextLogIdx - 1) + 1 ∧
    peerC5.cntNotApplied = 3 ∧
    (createAppendEntriesReq viewC5 peerC5).2.cntNotApplied = 0 := by
  refine ⟨rfl, rfl, ?_⟩
  decide

/-- Claim C5 (amended): `cnt_not_applied` is incremented only when the
peer's `last_sent_idx = last_log_idx + 1` AND additionally
`last_log_idx + 2 < end_idx` (more than one entry would be shipped); on
the 5th such observation the batch end is narrowed to `last_log_idx + 2`
so that exactly one entry is shipped; in every other case — including
`last_sent_idx = last_log_idx + 1` with at most one entry available —
the counter is reset to 0. -/
theorem retry_narrowing_behavior (v : LeaderView) (p : Peer)
    (h0 : 1 ≤ p.nextLogIdx)
    (h1 : p.nextLogIdx - 1 < v.curNextIdx)
    (h2 : (match v.snapshot with
           | some s => decide (p.nextLogIdx - 1 < v.startIndex ∧
                               p.nextLogIdx - 1 < s.lastLogIdx)
           | none => false) = false) :
    (p.nextLogIdx - 1 + 1 = p.lastSentIdx ∧
       p.nextLogIdx - 1 + 2 <
         min v.curNextIdx (p.nextLogIdx - 1 + 1 + v.maxAppendSize) →
       (createAppendEntriesReq v p).2.cntNotApplied = p.cntNotApplied + 1 ∧
       (5 ≤ p.cntNotApplied + 1 →
         (createAppendEntriesReq v p).1 =
           BuildResult.appendReq v.term
             (termForLog v.log v.snapshot (p.nextLogIdx - 1))
             (p.nextLogIdx - 1) v.commitIdx (p.nextLogIdx - 1 + 2) 1) ∧
       (p.cntNotApplied + 1 < 5 →
         (createAppendEntriesReq v p).1 =
           BuildResult.appendReq v.term
             (termForLog v.log v.snapshot (p.nextLogIdx - 1))
             (p.nextLogIdx - 1) v.commitIdx
             (min v.curNextIdx (p.nextLogIdx - 1 + 1 + v.maxAppendSize))
             (min v.curNextIdx (p.nextLogIdx - 1 + 1 + v.maxAppendSize)
               - (p.nextLogIdx - 1 + 1)))) ∧
    (¬ (p.nextLogIdx - 1 + 1 = p.lastSentIdx ∧
        p.nextLogIdx - 1 + 2 <
          min v.curNextIdx (p.nextLogIdx - 1 + 1 + v.maxAppendSize)) →
       (createAppendEntriesReq v p).2.cntNotApplied = 0) := by
  have hinit : ¬ p.nextLogIdx = 0 := by omega
  have hfat : ¬ (p.nextLogIdx - 1 ≥ v.curNextIdx) := by omega
  have hfb : ¬ ((match v.snapshot with
                 | some s => decide (p.nextLogIdx - 1 < v.startIndex ∧
                                     p.nextLogIdx - 1 < s.lastLogIdx)
                 | none => false) = true) := by
    rw [h2]; decide
  constructor
  · intro hc
    have hone : ¬ (p.nextLogIdx - 1 + 1 ≥ v.curNextIdx) := by omega
    refine ⟨?_, ?_, ?_⟩
    · simp only [createAppendEntriesReq, if_neg hinit, if_neg hfat, if_neg hfb,
        if_pos hc]
      split <;> rfl
    · intro h5
      simp only [createAppendEntriesReq, if_neg hinit, if_neg hfat, if_neg hfb,
        if_pos hc, if_pos h5, if_neg hone]
      have hend : min v.curNextIdx (p.nextLogIdx - 1 + 1 + 1)
          = p.nextLogIdx - 1 + 2 := by omega
      rw [hend]
      have hnum : p.nextLogIdx - 1 + 2 - (p.nextLogIdx - 1 + 1) = 1 := by omega
      rw [hnum]
    · intro h5
      have h5' : ¬ (p.cntNotApplied + 1 ≥ 5) := by omega
      simp only [createAppendEntriesReq, if_neg hinit, if_neg hfat, if_neg hfb,
        if_pos hc, if_neg h5', if_neg hone]
  · intro hc
    simp only [createAppendEntriesReq, if_neg hinit, if_neg hfat, if_neg hfb,
      if_neg hc]

theorem retry_narrowing_behavior_witness :
    (1 ≤ peerC5b.nextLogIdx) ∧
    (createAppendEntriesReq viewC5 peerC5b).2.cntNotApplied
      = peerC5b.cntNotApplied + 1 ∧
    (createAppendEntriesReq viewC5 peerC5b).1 =
      BuildResult.appendReq 1 1 1 0 3 1 := by
  have h := retry_narrowing_behavior viewC5 peerC5b
    (by decide) (by decide) (by decide)
  have hc := h.1 (by decide)
  refine ⟨by decide, hc.1, ?_⟩
  have h3 := hc.2.1 (by decide)
  exact h3.trans (by decide)

/-! ## Claim C1 -/

/-- Claim C1 (confirmed): on every accepted response from a known peer,
the commit candidate passed to `commit` is the element at position
`quorum_for_commit()` of the descending sort of the list holding
`matched_idx` of every non-learner peer (after the responding peer's
update) plus the leader's own `next_slot - 1`; learners are excluded. -/
theorem commit_candidate_is_quorum_order_statistic
    (nextSlot quorum : Nat) (peers : List Peer) (resp : RespMsg)
    (hacc : resp.accepted = true)
    (hsrc : (peers.all (fun p => p.id ≠ resp.src)) = false)
    (hq : quorum < (votersOf (peers.map (fun p =>
            if p.id = resp.src then acceptedPeerUpdate p resp.nextIdx else p))).length + 1) :
    ∃ sorted : List Nat,
      sorted.Perm ((nextSlot - 1) ::
        votersOf (peers.map (fun p =>
          if p.id = resp.src then acceptedPeerUpdate p resp.nextIdx else p))) ∧
      sorted.Sorted (fun a b => b ≤ a) ∧
      (handleAppendEntriesResp nextSlot quorum peers resp).1 =
        peers.map (fun p =>
          if p.id = resp.src then acceptedPeerUpdate p resp.nextIdx else p) ∧
      (handleAppendEntriesResp nextSlot quorum peers resp).2 =
        some (sorted.getD quorum 0) := by
  set updated := peers.map (fun p =>
    if p.id = resp.src then acceptedPeerUpdate p resp.nextIdx else p) with hupd
  refine ⟨sortDesc (collectMatchedIndexes (nextSlot - 1) updated), ?_, ?_, ?_, ?_⟩
  · rw [collect_eq_cons]
    exact List.perm_insertionSort _ _
  · exact List.sorted_insertionSort _ _
  · simp only [handleAppendEntriesResp, hsrc, Bool.false_eq_true, if_false,
      hacc, if_true, ← hupd]
  · simp only [handleAppendEntriesResp, hsrc, Bool.false_eq_true, if_false,
      hacc, if_true, ← hupd]

theorem commit_candidate_is_quorum_order_statistic_witness :
    (peersS5.all (fun p => p.id ≠ (1 : Nat)) = false) ∧
    (∃ sorted : List Nat,
      sorted.Perm ((11 - 1) ::
        votersOf (peersS5.map (fun p =>
          if p.id = (1 : Nat) then acceptedPeerUpdate p 11 else p))) ∧
      sorted.Sorted (fun a b => b ≤ a) ∧
      (handleAppendEntriesResp 11 2 peersS5 ⟨1, 11, true⟩).1 =
        peersS5.map (fun p =>
          if p.id = (1 : Nat) then acceptedPeerUpdate p 11 else p) ∧
      (handleAppendEntriesResp 11 2 peersS5 ⟨1, 11, true⟩).2 =
        some (sorted.getD 2 0)) ∧
    (handleAppendEntriesResp 11 2 peersS5 ⟨1, 11, true⟩).2 = some 9 := by
  refine ⟨by decide, ?_, by decide⟩
  exact commit_candidate_is_quorum_order_statistic 11 2 peersS5 ⟨1, 11, true⟩
    rfl (by decide) (by decide)

/-! ## Claim C2 -/

/-- Claim C2 (confirmed): for every request that `handle_append_entries`
accepts, with `L = req.last_log_idx + |entries|`, after the handler
returns the follower's log satisfies `next_slot - 1 ≥ L`
(`next_slot - 1` is the model's `log.length`), and for every index `k`
with `req.last_log_idx < k ≤ L` the stored term at `k` equals the term
of the corresponding request entry.  The snapshot-sanity hypothesis
(`snapshot.last_log_idx ≤ next_slot - 1`, the log-store/compaction
contract) rules out states where a snapshot lies beyond the log end. -/
theorem log_matching_after_accept (st0 : FollowerState) (req : AppendReq)
    (r : AppendResp) (st' : FollowerState) (tr : List Ev)
    (h : handleAppendEntries st0 req = (some r, st', tr))
    (hacc : r.accepted = true)
    (hsnap : ∀ s, st0.snapshot = some s → s.lastLogIdx ≤ st0.log.length) :
    req.lastLogIdx + req.entries.length ≤ st'.log.length ∧
    (∀ k, req.lastLogIdx < k → k ≤ req.lastLogIdx + req.entries.length →
      termAt st'.log k
        = (req.entries.getD (k - req.lastLogIdx - 1) default).term) := by
  obtain ⟨stp, trp, hnl, hnlt, hok, hwp, hst, htr, hr⟩ :=
    handle_accept_char st0 req r st' tr h hacc
  obtain ⟨-, hMlog, -, -, -, -, -, -, -, -, -, -⟩ := acceptMid_fields st0 req
  have hstlog : st'.log = stp.log := by
    rw [hst]
    exact (commitAdvance_fields _ _).2.2.1
  have hb := logOkay_bound st0.log st0.snapshot req hok hsnap
  by_cases hne : 0 < req.entries.length
  · have hidx : req.lastLogIdx + 1 ≤ (acceptMid st0 req).log.length + 1 := by
      rw [hMlog]
      omega
    obtain ⟨hcore, hlen, hterm, hpre, hqci, hΔ⟩ :=
      wp_accept (acceptMid st0 req) req stp trp hne hidx hwp
    constructor
    · rw [hstlog]
      exact hlen
    · intro k hk1 hk2
      have h3 := hterm (k - req.lastLogIdx - 1) (by omega)
      have hkeq : req.lastLogIdx + 1 + (k - req.lastLogIdx - 1) = k := by
        omega
      rw [hkeq] at h3
      rw [hstlog]
      exact h3
  · have hwe := wp_empty (acceptMid st0 req) req (by omega)
    rw [hwe] at hwp
    have hstp : stp = acceptMid st0 req :=
      (congrArg (fun p =>
        (p : FollowerState × List Ev × Bool).1) hwp).symm
    constructor
    · rw [hstlog, hstp, hMlog]
      omega
    · intro k hk1 hk2
      omega

theorem log_matching_after_accept_witness :
    handleAppendEntries stHappy reqHappy =
      (some ⟨1, 4, true⟩,
       ⟨1, SrvRole.follower, [appEntry 1, appEntry 1, appEntry 1], none,
        0, 2, 2, 9, false, true, false, false⟩,
       [Ev.append 3, Ev.preCommit 3 0, Ev.batchEnd 3 1, Ev.commitCall 2]) ∧
    (2 + 1 ≤ 3 ∧
     (∀ k, (2 : Nat) < k → k ≤ 2 + 1 →
       termAt [appEntry 1, appEntry 1, appEntry 1] k
         = ((reqHappy.entries).getD (k - 2 - 1) default).term)) := by
  have hrun : handleAppendEntries stHappy reqHappy =
      (some ⟨1, 4, true⟩,
       ⟨1, SrvRole.follower, [appEntry 1, appEntry 1, appEntry 1], none,
        0, 2, 2, 9, false, true, false, false⟩,
       [Ev.append 3, Ev.preCommit 3 0, Ev.batchEnd 3 1, Ev.commitCall 2]) := by
    decide
  refine ⟨hrun, ?_⟩
  have hcl := log_matching_after_accept stHappy reqHappy ⟨1, 4, true⟩ _ _
    hrun rfl (by simp [stHappy])
  exact hcl

/-! ## Claim C3 -/

/-- Claim C3 (confirmed): outside the same-term-second-leader path (which
returns no response at all), `handle_append_entries` replies
`{accepted = false, next_idx = next_slot}` and leaves the log unmodified
exactly when `req.term < current_term` or the `log_okay` predicate is
false; and `req.last_log_idx = 0` always makes `log_okay` true. -/
theorem reject_iff_stale_or_log_mismatch (st0 : FollowerState)
    (req : AppendReq)
    (hnl : ¬ (req.term = st0.term ∧ st0.role = SrvRole.leader)) :
    (((handleAppendEntries st0 req).1
        = some ⟨st0.term, st0.log.length + 1, false⟩ ∧
      (handleAppendEntries st0 req).2.1.log = st0.log)
     ↔ (req.term < st0.term ∨ logOkay st0.log st0.snapshot req = false)) ∧
    (req.lastLogIdx = 0 → logOkay st0.log st0.snapshot req = true) := by
  obtain ⟨htm0, hlog0, hsnap0, -, -, -, -, -, -, -, -, -⟩ :=
    roleReconcile_fields st0 req
  constructor
  · by_cases hrej : req.term < st0.term ∨
        logOkay st0.log st0.snapshot req = false
    · rw [handle_unfold_reject st0 req hnl hrej]
      exact ⟨fun _ => hrej, fun _ => ⟨rfl, hlog0⟩⟩
    · rcases hw : writePhases (acceptMid st0 req) req with ⟨stp, trp, early⟩
      cases early
      · rw [handle_unfold_accept st0 req stp trp hnl hrej hw]
        constructor
        · rintro ⟨h1, -⟩
          exfalso
          simp only [Option.some.injEq, AppendResp.mk.injEq] at h1
          exact absurd h1.2.2 (by simp)
        · intro hr
          exact absurd hr hrej
      · rw [handle_unfold_early st0 req stp trp hnl hrej hw]
        constructor
        · rintro ⟨-, h2⟩
          exfalso
          apply wp_early_log (acceptMid st0 req) req stp trp hw
          rw [(acceptMid_fields st0 req).2.1]
          exact h2
        · intro hr
          exact absurd hr hrej
  · intro h0
    unfold logOkay
    rw [h0]
    simp

theorem reject_iff_stale_or_log_mismatch_witness :
    (¬ (reqStale.term = stTermFive.term ∧
        stTermFive.role = SrvRole.leader)) ∧
    (((handleAppendEntries stTermFive reqStale).1
        = some ⟨stTermFive.term, stTermFive.log.length + 1, false⟩ ∧
      (handleAppendEntries stTermFive reqStale).2.1.log = stTermFive.log)
     ↔ (reqStale.term < stTermFive.term ∨
        logOkay stTermFive.log stTermFive.snapshot reqStale = false)) ∧
    (reqStale.lastLogIdx = 0 →
      logOkay stTermFive.log stTermFive.snapshot reqStale = true) := by
  refine ⟨by decide, ?_, ?_⟩
  · exact (reject_iff_stale_or_log_mismatch stTermFive reqStale
      (by decide)).1
  · exact (reject_iff_stale_or_log_mismatch stTermFive reqStale
      (by decide)).2

/-! ## Claim C4 -/

/-- Claim C4 counterexample: a follower whose `quick_commit_index` (3)
exceeds `sm_commit_index` (0) accepts an overwrite at index 1; the
truncation shrinks the log to one entry, the regression guard
(`log_idx ≤ sm_commit_index`) does not fire, and the handler ends with
`quick_commit_index = 3 > next_slot - 1 = 1`, refuting "the quick commit
index never exceeds `next_slot - 1` after the handler runs". -/
theorem quick_commit_exceeds_next_slot_after_accept :
    (handleAppendEntries stStaleQci reqOverwrite).1 = some ⟨2, 2, true⟩ ∧
    (handleAppendEntries stStaleQci reqOverwrite).2.1.log.length = 1 ∧
    (handleAppendEntries stStaleQci reqOverwrite).2.1.quickCommitIndex = 3 ∧
    ¬ ((handleAppendEntries stStaleQci reqOverwrite).2.1.quickCommitIndex
        ≤ (handleAppendEntries stStaleQci reqOverwrite).2.1.log.length) := by
  refine ⟨by decide, by decide, by decide, by decide⟩

/-- Claim C4 (amended): on every accepted request, `commit` is called
exactly once, with exactly `min(req.commit_idx, next_slot - 1)` where
`next_slot` is read after reconciliation; hence the commit call itself
never raises `quick_commit_index` above `next_slot - 1` (formally,
`quick_commit_index` after the handler is bounded by the maximum of its
prior value and `next_slot - 1`).  A stale `quick_commit_index` already
above `next_slot - 1` can however survive the handler, because the
overwrite regression is guarded by `sm_commit_index`, not by
`quick_commit_index`. -/
theorem commit_called_with_min_post_next_slot (st0 : FollowerState)
    (req : AppendReq) (r : AppendResp) (st' : FollowerState) (tr : List Ev)
    (h : handleAppendEntries st0 req = (some r, st', tr))
    (hacc : r.accepted = true)
    (hsnap : ∀ s, st0.snapshot = some s → s.lastLogIdx ≤ st0.log.length) :
    Ev.commitCall (min req.commitIdx st'.log.length) ∈ tr ∧
    (∀ i, Ev.commitCall i ∈ tr → i = min req.commitIdx st'.log.length) ∧
    st'.quickCommitIndex ≤ max st0.quickCommitIndex st'.log.length := by
  obtain ⟨stp, trp, hnl, hnlt, hok, hwp, hst, htr, hr⟩ :=
    handle_accept_char st0 req r st' tr h hacc
  obtain ⟨-, hMlog, -, -, -, hMqci, -, -, -, -, -, -⟩ :=
    acceptMid_fields st0 req
  have hstlog : st'.log = stp.log := by
    rw [hst]
    exact (commitAdvance_fields _ _).2.2.1
  have hb := logOkay_bound st0.log st0.snapshot req hok hsnap
  have hqbound : stp.quickCommitIndex
      ≤ max st0.quickCommitIndex stp.log.length ∧
      (∀ x ∈ trp, phaseEv x = false → ∃ s c, x = Ev.batchEnd s c) := by
    by_cases hne : 0 < req.entries.length
    · have hidx : req.lastLogIdx + 1 ≤ (acceptMid st0 req).log.length + 1 := by
        rw [hMlog]
        omega
      obtain ⟨hcore, hlen, hterm, hpre, hqci, Δ, hΔeq, hΔev⟩ :=
        wp_accept (acceptMid st0 req) req stp trp hne hidx hwp
      refine ⟨by rw [← hMqci]; exact hqci, ?_⟩
      intro x hx hfalse
      rw [hΔeq] at hx
      rcases List.mem_append.mp hx with hx | hx
      · rw [hΔev x hx] at hfalse
        exact absurd hfalse (by simp)
      · simp only [List.mem_singleton] at hx
        exact ⟨_, _, hx⟩
    · have hwe := wp_empty (acceptMid st0 req) req (by omega)
      rw [hwe] at hwp
      have hstp : stp = acceptMid st0 req :=
        (congrArg (fun p =>
          (p : FollowerState × List Ev × Bool).1) hwp).symm
      have htrp : trp = [] :=
        (congrArg (fun p =>
          (p : FollowerState × List Ev × Bool).2.1) hwp).symm
      refine ⟨by rw [hstp, hMqci]; omega, ?_⟩
      intro x hx _
      rw [htrp] at hx
      simp at hx
  refine ⟨?_, ?_, ?_⟩
  · rw [htr, hstlog]
    simp
  · intro i hi
    rw [htr] at hi
    rcases List.mem_append.mp hi with hi | hi
    · obtain ⟨s, c, habs⟩ := hqbound.2 _ hi rfl
      exact absurd habs (by simp)
    · simp only [List.mem_singleton] at hi
      have := congrArg (fun x => match x with
        | Ev.commitCall j => j
        | _ => 0) hi
      simp only at this
      rw [this, hstlog]
  · have hqa := (commitAdvance_qci
      { stp with leaderId := req.src, leaderCommitIndex := req.commitIdx }
      (min req.commitIdx stp.log.length)).2
    have hq2 : st'.quickCommitIndex ≤ max stp.quickCommitIndex
        (min req.commitIdx stp.log.length) := by
      rw [hst]
      exact hqa
    have := hqbound.1
    rw [hstlog]
    omega

theorem commit_called_with_min_post_next_slot_witness :
    handleAppendEntries stHappy reqHappy =
      (some ⟨1, 4, true⟩,
       ⟨1, SrvRole.follower, [appEntry 1, appEntry 1, appEntry 1], none,
        0, 2, 2, 9, false, true, false, false⟩,
       [Ev.append 3, Ev.preCommit 3 0, Ev.batchEnd 3 1, Ev.commitCall 2]) ∧
    (Ev.commitCall (min reqHappy.commitIdx 3)
       ∈ [Ev.append 3, Ev.preCommit 3 0, Ev.batchEnd 3 1,
          Ev.commitCall 2] ∧
     (∀ i, Ev.commitCall i
        ∈ [Ev.append 3, Ev.preCommit 3 0, Ev.batchEnd 3 1,
           Ev.commitCall 2] → i = min reqHappy.commitIdx 3) ∧
     (2 : Nat) ≤ max stHappy.quickCommitIndex 3) := by
  have hrun : handleAppendEntries stHappy reqHappy =
      (some ⟨1, 4, true⟩,
       ⟨1, SrvRole.follower, [appEntry 1, appEntry 1, appEntry 1], none,
        0, 2, 2, 9, false, true, false, false⟩,
       [Ev.append 3, Ev.preCommit 3 0, Ev.batchEnd 3 1, Ev.commitCall 2]) := by
    decide
  refine ⟨hrun, ?_⟩
  have hcl := commit_called_with_min_post_next_slot stHappy reqHappy
    ⟨1, 4, true⟩ _ _ hrun rfl (by simp [stHappy])
  exact hcl

/-! ## Claim C6 -/

/-- Claim C6 counterexample: an accepted empty heartbeat produces a
response but never calls `end_of_append_batch` (the call sits inside
`if (req.log_entries().size() > 0)`), refuting "on every invocation that
produces a response, `end_of_append_batch` is called". -/
theorem end_of_batch_skipped_on_heartbeat :
    (handleAppendEntries stHeartbeat reqHeartbeat).1 = some ⟨1, 3, true⟩ ∧
    (handleAppendEntries stHeartbeat reqHeartbeat).2.2 = [Ev.commitCall 1] ∧
    (∀ s c, Ev.batchEnd s c ∉
      (handleAppendEntries stHeartbeat reqHeartbeat).2.2) := by
  have h2 : (handleAppendEntries stHeartbeat reqHeartbeat).2.2
      = [Ev.commitCall 1] := by decide
  refine ⟨by decide, h2, ?_⟩
  intro s c hc
  rw [h2] at hc
  simp at hc

/-- Claim C6 (amended): on every invocation that is accepted with a
nonempty entries vector and runs to completion (no early stopping
return), `end_of_append_batch(req.last_log_idx + 1, |entries|)` is
called exactly once, after all log writes and state-machine calls of the
request and before the final `commit` call and the response. -/
theorem end_of_batch_after_writes_on_nonempty_accept (st0 : FollowerState)
    (req : AppendReq) (r : AppendResp) (st' : FollowerState) (tr : List Ev)
    (h : handleAppendEntries st0 req = (some r, st', tr))
    (hacc : r.accepted = true)
    (hne : 0 < req.entries.length)
    (hsnap : ∀ s, st0.snapshot = some s → s.lastLogIdx ≤ st0.log.length) :
    ∃ Δ, tr = Δ ++ [Ev.batchEnd (req.lastLogIdx + 1) req.entries.length,
                    Ev.commitCall (min req.commitIdx st'.log.length)] ∧
      ∀ x ∈ Δ, phaseEv x = true := by
  obtain ⟨stp, trp, hnl, hnlt, hok, hwp, hst, htr, hr⟩ :=
    handle_accept_char st0 req r st' tr h hacc
  obtain ⟨-, hMlog, -, -, -, -, -, -, -, -, -, -⟩ := acceptMid_fields st0 req
  have hstlog : st'.log = stp.log := by
    rw [hst]
    exact (commitAdvance_fields _ _).2.2.1
  have hb := logOkay_bound st0.log st0.snapshot req hok hsnap
  have hidx : req.lastLogIdx + 1 ≤ (acceptMid st0 req).log.length + 1 := by
    rw [hMlog]
    omega
  obtain ⟨hcore, hlen, hterm, hpre, hqci, Δ, hΔeq, hΔev⟩ :=
    wp_accept (acceptMid st0 req) req stp trp hne hidx hwp
  refine ⟨Δ, ?_, hΔev⟩
  rw [htr, hΔeq, hstlog]
  simp

theorem end_of_batch_after_writes_on_nonempty_accept_witness :
    handleAppendEntries stHappy reqHappy =
      (some ⟨1, 4, true⟩,
       ⟨1, SrvRole.follower, [appEntry 1, appEntry 1, appEntry 1], none,
        0, 2, 2, 9, false, true, false, false⟩,
       [Ev.append 3, Ev.preCommit 3 0, Ev.batchEnd 3 1, Ev.commitCall 2]) ∧
    (∃ Δ, [Ev.append 3, Ev.preCommit 3 0, Ev.batchEnd 3 1, Ev.commitCall 2]
        = Δ ++ [Ev.batchEnd (reqHappy.lastLogIdx + 1)
                  reqHappy.entries.length,
                Ev.commitCall (min reqHappy.commitIdx 3)] ∧
      ∀ x ∈ Δ, phaseEv x = true) := by
  have hrun : handleAppendEntries stHappy reqHappy =
      (some ⟨1, 4, true⟩,
       ⟨1, SrvRole.follower, [appEntry 1, appEntry 1, appEntry 1], none,
        0, 2, 2, 9, false, true, false, false⟩,
       [Ev.append 3, Ev.preCommit 3 0, Ev.batchEnd 3 1, Ev.commitCall 2]) := by
    decide
  refine ⟨hrun, ?_⟩
  have hcl := end_of_batch_after_writes_on_nonempty_accept stHappy reqHappy
    ⟨1, 4, true⟩ _ _ hrun rfl (by decide) (by simp [stHappy])
  exact hcl

theorem logOkay_transfer (log0 log1 : List LogEntry) (snp : Option Snapshot)
    (req : AppendReq)
    (hok : logOkay log0 snp req = true)
    (hb0 : req.lastLogIdx ≤ log0.length)
    (hb1 : req.lastLogIdx ≤ log1.length)
    (hpre : ∀ m, 1 ≤ m → m ≤ req.lastLogIdx →
      termAt log1 m = termAt log0 m) :
    logOkay log1 snp req = true := by
  by_cases h0 : req.lastLogIdx = 0
  · unfold logOkay
    rw [h0]
    simp
  · have htf : termForLog log1 snp req.lastLogIdx
        = termForLog log0 snp req.lastLogIdx := by
      unfold termForLog
      rw [if_neg h0, if_neg h0, if_pos (by omega : req.lastLogIdx ≤ log1.length),
        if_pos (by omega : req.lastLogIdx ≤ log0.length)]
      exact hpre req.lastLogIdx (by omega) (by omega)
    simp only [logOkay,
      if_pos (show req.lastLogIdx < log0.length + 1 by omega)] at hok
    simp only [logOkay,
      if_pos (show req.lastLogIdx < log1.length + 1 by omega), htf]
    exact hok

/-! ## Claim C9 -/

/-- Claim C9 (confirmed): whenever the stopping flag is set and the
handler performed at least one log write or append (i.e. the overwrite
or append phase ran), the handler returns the response object built
before any writes — `accepted = false` with `next_idx` equal to
`next_slot` as sampled before reconciliation — even though entries have
already been written, and `end_of_append_batch` is never called on this
path.  (`stopping_` is modelled as a flag constant over the handler
run.) -/
theorem stopping_returns_stale_reject (st0 : FollowerState)
    (req : AppendReq)
    (hstop : st0.stopping = true)
    (hwr : ∃ i, Ev.writeAt i ∈ (handleAppendEntries st0 req).2.2 ∨
                Ev.append i ∈ (handleAppendEntries st0 req).2.2) :
    (handleAppendEntries st0 req).1
      = some ⟨st0.term, st0.log.length + 1, false⟩ ∧
    (∀ s c, Ev.batchEnd s c ∉ (handleAppendEntries st0 req).2.2) := by
  obtain ⟨i, hwr⟩ := hwr
  have hMstop : (acceptMid st0 req).stopping = true := by
    have hms : (acceptMid st0 req).stopping = st0.stopping :=
      (acceptMid_fields st0 req).2.2.2.1
    rw [hms, hstop]
  by_cases h1 : req.term = st0.term ∧ st0.role = SrvRole.leader
  · rw [handle_unfold_none st0 req h1] at hwr
    simp at hwr
  · by_cases h2 : req.term < st0.term ∨
        logOkay st0.log st0.snapshot req = false
    · rw [handle_unfold_reject st0 req h1 h2] at hwr
      simp at hwr
    · rcases hw : writePhases (acceptMid st0 req) req with ⟨stp, trp, early⟩
      cases early
      · -- completed run with the stopping flag: no write can be in the trace
        exfalso
        rw [handle_unfold_accept st0 req stp trp h1 h2 hw] at hwr
        obtain ⟨-, hev⟩ :=
          wp_stopping_ok (acceptMid st0 req) req stp trp hMstop hw
        rcases hwr with hwr | hwr <;>
          rcases List.mem_append.mp hwr with hx | hx
        · exact absurd (hev _ hx) (by simp [phaseEv])
        · simp only [List.mem_singleton] at hx
          exact Ev.noConfusion hx
        · exact absurd (hev _ hx) (by simp [phaseEv])
        · simp only [List.mem_singleton] at hx
          exact Ev.noConfusion hx
      · rw [handle_unfold_early st0 req stp trp h1 h2 hw]
        refine ⟨rfl, ?_⟩
        intro s c hc
        have hev := wp_early_events (acceptMid st0 req) req stp trp hw
        exact absurd (hev _ hc) (by simp [phaseEv])

theorem stopping_returns_stale_reject_witness :
    stStopping.stopping = true ∧
    (handleAppendEntries stStopping reqOverwrite).1
      = some ⟨stStopping.term, stStopping.log.length + 1, false⟩ ∧
    (∀ s c, Ev.batchEnd s c ∉
      (handleAppendEntries stStopping reqOverwrite).2.2) := by
  have hcl := stopping_returns_stale_reject stStopping reqOverwrite rfl
    ⟨1, Or.inl (by decide)⟩
  exact ⟨rfl, hcl.1, hcl.2⟩

/-! ## Claim C7 -/

/-- Claim C7 (confirmed): for every follower state and every request the
handler accepts, immediately handling an identical copy of the same
request again produces an identical response and leaves the follower
state — log, commit indices, role, and all other modelled fields —
entirely unchanged (timers are not modelled).  As in C2, the snapshot
is assumed to lie within the log (log-store compaction contract). -/
theorem replay_identical_request_idempotent (st0 : FollowerState)
    (req : AppendReq) (r : AppendResp) (st1 : FollowerState) (tr1 : List Ev)
    (h : handleAppendEntries st0 req = (some r, st1, tr1))
    (hacc : r.accepted = true)
    (hsnap : ∀ s, st0.snapshot = some s → s.lastLogIdx ≤ st0.log.length) :
    (handleAppendEntries st1 req).1 = some r ∧
    (handleAppendEntries st1 req).2.1 = st1 := by
  obtain ⟨stp, trp, hnl, hnlt, hok, hwp, hst, htr, hr⟩ :=
    handle_accept_char st0 req r st1 tr1 h hacc
  obtain ⟨hMterm, hMlog, hMsnap, hMstop, hMsm, hMqci, hMlid, hMlci, hMcat,
    hMinit, hMcfg, hMrole⟩ := acceptMid_fields st0 req
  have hb := logOkay_bound st0.log st0.snapshot req hok hsnap
  -- facts about the phase output `stp`
  have hpack : coreSame (acceptMid st0 req) stp ∧
      req.lastLogIdx + req.entries.length ≤ stp.log.length ∧
      (∀ j, j < req.entries.length →
        termAt stp.log (req.lastLogIdx + 1 + j)
          = (req.entries.getD j default).term) ∧
      (∀ m, 1 ≤ m → m ≤ req.lastLogIdx →
        termAt stp.log m = termAt st0.log m) := by
    by_cases hne : 0 < req.entries.length
    · have hidx : req.lastLogIdx + 1 ≤ (acceptMid st0 req).log.length + 1 := by
        rw [hMlog]
        omega
      obtain ⟨hcore, hlen, hterm, hpre, -, -⟩ :=
        wp_accept (acceptMid st0 req) req stp trp hne hidx hwp
      refine ⟨hcore, hlen, hterm, ?_⟩
      intro m hm1 hm2
      rw [hpre m hm1 hm2, hMlog]
    · have hwe := wp_empty (acceptMid st0 req) req (by omega)
      rw [hwe] at hwp
      have hstp : stp = acceptMid st0 req :=
        (congrArg (fun p =>
          (p : FollowerState × List Ev × Bool).1) hwp).symm
      refine ⟨by rw [hstp]; exact coreSame_refl _, ?_, ?_, ?_⟩
      · rw [hstp, hMlog]
        omega
      · intro j hj
        omega
      · intro m hm1 hm2
        rw [hstp, hMlog]
  obtain ⟨hpk1, hpk2, hpk3, hpk4⟩ := hpack
  obtain ⟨hcs1, hcs2, hcs3, hcs4, hcs5, hcs6, hcs7, hcs8⟩ := hpk1
  -- field values of the state after the first call
  have h_term : st1.term = st0.term := by
    rw [hst]
    exact ((commitAdvance_fields _ _).1).trans (hcs1.trans hMterm)
  have h_log : st1.log = stp.log := by
    rw [hst]
    exact (commitAdvance_fields _ _).2.2.1
  have h_snap : st1.snapshot = st0.snapshot := by
    rw [hst]
    exact ((commitAdvance_fields _ _).2.2.2.1).trans (hcs3.trans hMsnap)
  have h_role : st1.role =
      (if req.term = st0.term ∧ st0.role = SrvRole.candidate
       then SrvRole.follower else st0.role) := by
    rw [hst]
    exact ((commitAdvance_fields _ _).2.1).trans (hcs2.trans hMrole)
  have h_init : st1.initialized = true := by
    rw [hst]
    exact ((commitAdvance_fields _ _).2.2.2.2.2.2.2.2.1).trans
      (hcs5.trans hMinit)
  have h_cat : st1.catchingUp = false := by
    rw [hst]
    exact ((commitAdvance_fields _ _).2.2.2.2.2.2.2.2.2.1).trans
      (hcs6.trans hMcat)
  have h_lid : st1.leaderId = req.src := by
    rw [hst]
    exact (commitAdvance_fields _ _).2.2.2.2.2.2.1
  have h_lci : st1.leaderCommitIndex = req.commitIdx := by
    rw [hst]
    exact (commitAdvance_fields _ _).2.2.2.2.2.2.2.1
  have h_qci : min req.commitIdx stp.log.length ≤ st1.quickCommitIndex := by
    rw [hst]
    exact (commitAdvance_qci _ _).1
  -- the leader check of the second call fails
  have hnl2 : ¬ (req.term = st1.term ∧ st1.role = SrvRole.leader) := by
    rintro ⟨ha, hb2⟩
    rw [h_role] at hb2
    by_cases hc : req.term = st0.term ∧ st0.role = SrvRole.candidate
    · rw [if_pos hc] at hb2
      exact SrvRole.noConfusion hb2
    · rw [if_neg hc] at hb2
      rw [h_term] at ha
      exact hnl ⟨ha, hb2⟩
  -- the reject check of the second call fails
  have hok1 : logOkay st1.log st1.snapshot req = true := by
    rw [h_log, h_snap]
    exact logOkay_transfer st0.log stp.log st0.snapshot req hok hb
      (by omega) hpk4
  have hcond2 : ¬ (req.term < st1.term ∨
      logOkay st1.log st1.snapshot req = false) := by
    rintro (hlt | hbad)
    · rw [h_term] at hlt
      exact hnlt hlt
    · rw [hok1] at hbad
      exact Bool.noConfusion hbad
  -- the second call's phases are a pure no-op
  have hmid1 : acceptMid st1 req = st1 := by
    unfold acceptMid
    rw [roleReconcile_id st1 req h_cat ?_]
    · exact eta_initialized st1 h_init
    · rintro ⟨ha, hb2⟩
      rw [h_role] at hb2
      by_cases hc : req.term = st0.term ∧ st0.role = SrvRole.candidate
      · rw [if_pos hc] at hb2
        exact SrvRole.noConfusion hb2
      · rw [if_neg hc] at hb2
        rw [h_term] at ha
        exact hc ⟨ha, hb2⟩
  have hw2 : writePhases (acceptMid st1 req) req =
      (st1, (if 0 < req.entries.length
             then [Ev.batchEnd (req.lastLogIdx + 1) req.entries.length]
             else []), false) := by
    rw [hmid1]
    apply wp_replay st1 req
    · rw [h_log]
      exact hpk2
    · intro j hj
      rw [h_log]
      exact hpk3 j hj
  have hfin := handle_unfold_accept st1 req st1 _ hnl2 hcond2 hw2
  rw [hfin]
  constructor
  · rw [hr, h_term]
  · have heta := eta_leaderFields st1 req.src req.commitIdx h_lid h_lci
    rw [heta]
    show commitAdvance st1 (min req.commitIdx st1.log.length) = st1
    apply commitAdvance_id
    rw [h_log]
    omega

theorem replay_identical_request_idempotent_witness :
    handleAppendEntries stHappy reqHappy =
      (some ⟨1, 4, true⟩,
       ⟨1, SrvRole.follower, [appEntry 1, appEntry 1, appEntry 1], none,
        0, 2, 2, 9, false, true, false, false⟩,
       [Ev.append 3, Ev.preCommit 3 0, Ev.batchEnd 3 1, Ev.commitCall 2]) ∧
    (handleAppendEntries
      (⟨1, SrvRole.follower, [appEntry 1, appEntry 1, appEntry 1], none,
        0, 2, 2, 9, false, true, false, false⟩ : FollowerState)
      reqHappy).1 = some (⟨1, 4, true⟩ : AppendResp) ∧
    (handleAppendEntries
      (⟨1, SrvRole.follower, [appEntry 1, appEntry 1, appEntry 1], none,
        0, 2, 2, 9, false, true, false, false⟩ : FollowerState)
      reqHappy).2.1 =
      ⟨1, SrvRole.follower, [appEntry 1, appEntry 1, appEntry 1], none,
       0, 2, 2, 9, false, true, false, false⟩ := by
  have hrun : handleAppendEntries stHappy reqHappy =
      (some ⟨1, 4, true⟩,
       ⟨1, SrvRole.follower, [appEntry 1, appEntry 1, appEntry 1], none,
        0, 2, 2, 9, false, true, false, false⟩,
       [Ev.append 3, Ev.preCommit 3 0, Ev.batchEnd 3 1, Ev.commitCall 2]) := by
    decide
  have hcl := replay_identical_request_idempotent stHappy reqHappy
    ⟨1, 4, true⟩ _ _ hrun rfl (by simp [stHappy])
  exact ⟨hrun, hcl.1, hcl.2⟩

end NuRaft
